import Mathlib

/-!
# rkg-finish-time-modifier: bit writer, CRC-32 and the edit sequence of `main`

A shallow embedding of `src/main.cpp`.

* A file is its byte contents, `List Nat`, every byte below 256 (`WF`).
* A `std::fstream` is the file contents plus the stream's failure state.
  In this program `eofbit` is only ever raised together with `failbit`
  (by a short `read`), and `seekg`, `seekp`, `read`, `write` and `tellg`
  all refuse to act once `failbit` is set, so one flag carries the state.
  Every access in the source seeks explicitly first (or reads sequentially
  from offset 0), so the cursor is an explicit argument of `read`/`write`.
* A C++ call either returns normally or leaves by an exception: `Except`.
* Machine integers are naturals. `writeBits` and `crc32` only shift right,
  mask and xor, so no operation overflows; stores into a `uint8_t` are the
  explicit `&&& 0xFF` / 8-bit complement of the source.
-/

namespace Rkg

/-! ## Streams -/

/-- Failures that are raised to a caller. -/
inductive Failure where
  /-- the bit span exceeds the stream (reader of `BigEndianBitReader.h`) -/
  | outOfRange
  /-- The `std::runtime_error` "File too small to contain a CRC32!" of `crc32` -/
  | tooSmall
deriving DecidableEq

/-- A `std::fstream` opened on a file: the file's bytes and the failure state. -/
structure FStream where
  bytes : List Nat
  failed : Bool
deriving DecidableEq

/-- A stream freshly and successfully opened on a file. -/
def FStream.opened (bytes : List Nat) : FStream := { bytes := bytes, failed := false }

/-- Every byte of a file is an 8-bit unit. -/
def WF (bytes : List Nat) : Prop := ∀ b ∈ bytes, b < 256

instance (bytes : List Nat) : Decidable (WF bytes) := by
  unfold WF; infer_instance

/-- Models `file.seekg(pos); file.read(buf, n)`: the bytes obtained (`gcount` is their
number) and the stream afterwards. A failed stream yields nothing; a read that
meets the end of the file before `n` bytes raises `eofbit | failbit`. -/
def FStream.read (f : FStream) (pos n : Nat) : List Nat × FStream :=
  if f.failed then ([], f)
  else
    let got := (f.bytes.drop pos).take n
    (got, { f with failed := decide (got.length < n) })

/-- Models `file.seekp(pos); file.write(data, data.size())`: nothing happens on a
failed stream; otherwise the bytes at `pos ..` are overwritten (a position past
the end would leave a zero-filled hole). -/
def FStream.write (f : FStream) (pos : Nat) (data : List Nat) : FStream :=
  if f.failed then f
  else
    { f with bytes := f.bytes.take pos ++ List.replicate (pos - f.bytes.length) 0
                        ++ data ++ f.bytes.drop (pos + data.length) }

/-! ## writeBits (main.cpp 30-61) -/

/-- One iteration `i` of the insertion loop (main.cpp 46-56). -/
def insertBit (value bitCount bitInByte : Nat) (buffer : List Nat) (i : Nat) : List Nat :=
  let srcBitPos := bitCount - 1 - i
  let bitVal := (value >>> srcBitPos) &&& 1
  let bufBitPos := bitInByte + i
  let bufByte := bufBitPos / 8
  let bufBit := 7 - (bufBitPos % 8)
  -- buffer[bufByte] &= ~(1 << bufBit), stored back into a uint8_t
  let cleared := buffer.getD bufByte 0 &&& (0xFF ^^^ (1 <<< bufBit))
  -- buffer[bufByte] |= bitVal << bufBit
  buffer.set bufByte (cleared ||| (bitVal <<< bufBit))

/-- The loop `for (i = 0; i < bitCount; ++i)` of `writeBits`. -/
def insertBits (value bitCount bitInByte : Nat) (buffer : List Nat) : List Nat :=
  (List.range bitCount).foldl (insertBit value bitCount bitInByte) buffer

/-- Source: `void writeBits(std::fstream& file, uint64_t value, size_t bitOffset, size_t bitCount)`.
The function has no `throw` and the stream's exception mask is empty, so every
path returns normally; the stream is returned in its new state. Shift counts
stay below 64 (defined behaviour) for `bitCount ≤ 64`. -/
def writeBits (file : FStream) (value bitOffset bitCount : Nat) : Except Failure FStream :=
  if bitCount = 0 then .ok file
  else
    let byteOffset := bitOffset / 8
    let bitInByte := bitOffset % 8
    let totalBits := bitInByte + bitCount
    let bytesNeeded := (totalBits + 7) / 8
    -- std::vector<uint8_t> buffer(bytesNeeded, 0); seekg; read
    let (got, file1) := file.read byteOffset bytesNeeded
    let buffer := got ++ List.replicate (bytesNeeded - got.length) 0
    let buffer1 := insertBits value bitCount bitInByte buffer
    -- seekp; write
    .ok (file1.write byteOffset buffer1)

/-! ## CRC-32 (main.cpp 64-115) -/

/-- One round of the inner loop of `makeCRCTable` (main.cpp 70-73). -/
def crcRound (c : Nat) : Nat :=
  if c &&& 1 ≠ 0 then 0xEDB88320 ^^^ (c >>> 1) else c >>> 1

/-- The loop `for (k = 0; k < 8; k++)` of `makeCRCTable`. -/
def crcRounds8 (n : Nat) : Nat :=
  (List.range 8).foldl (fun c _ => crcRound c) n

/-- Source: `std::vector<uint32_t> makeCRCTable()`. -/
def makeCRCTable : List Nat :=
  (List.range 256).map crcRounds8

/-- The body of the per-byte loop of `crc32` (main.cpp 108);
`b % 256` is `static_cast<uint8_t>(buffer[i])`. -/
def crcUpdate (crcTable : List Nat) (crc b : Nat) : Nat :=
  (crc >>> 8) ^^^ crcTable.getD ((crc ^^^ (b % 256)) &&& 0xFF) 0

/-- The `while (bytesToRead > 0)` loop of `crc32` (main.cpp 102-112) with read
buffer size `bufferSize`, reading sequentially from `pos`. An iteration whose
`read` obtains nothing leaves `bytesToRead` as it was and the loop never exits;
every other iteration lowers `bytesToRead`, so `bytesToRead + 1` units of fuel
are exhausted (`none`) exactly when the loop does not terminate. -/
def crcLoop (bufferSize : Nat) (crcTable : List Nat) :
    Nat → FStream → Nat → Nat → Nat → Option Nat
  | 0, _, _, _, _ => none
  | fuel + 1, file, pos, bytesToRead, crc =>
    if bytesToRead = 0 then some crc
    else
      let chunkSize := min bytesToRead bufferSize
      let (buffer, file1) := file.read pos chunkSize
      let readCount := buffer.length
      let crc1 := buffer.foldl (crcUpdate crcTable) crc
      crcLoop bufferSize crcTable fuel file1 (pos + readCount) (bytesToRead - readCount) crc1

/-- The function `crc32` with its read buffer size as a parameter. `none` means the
loop does not terminate. `seekg(0, end); tellg()` yields the file size on a
good stream and `-1` on a failed one, which is `< 4`. The local
`BigEndianBitReader br{ file }` is never used and is taken to leave the stream
as it is. -/
def crc32With (bufferSize : Nat) (file : FStream) : Option (Except Failure Nat) :=
  let crcTable := makeCRCTable
  let crc := 0xFFFFFFFF
  if file.failed ∨ file.bytes.length < 4 then some (.error .tooSmall)
  else
    let bytesToRead := file.bytes.length - 4
    match crcLoop bufferSize crcTable (bytesToRead + 1) file 0 bytesToRead crc with
    | none => none
    | some crc1 => some (.ok (crc1 ^^^ 0xFFFFFFFF))

/-- Source: `uint32_t crc32(std::fstream& file)`, with `bufferSize = 4096`. -/
def crc32 (file : FStream) : Option (Except Failure Nat) :=
  crc32With 4096 file

/-! ## File helpers (main.cpp 117-140) -/

/-- The files `main` works on: the source it was given and the copy it derives. -/
structure World where
  source : List Nat
  target : Option (List Nat)
deriving DecidableEq

/-- Source: `bool copyFile(src, dest)`: both files open, the target receives the
source's bytes. -/
def copyFile (w : World) : Bool × World :=
  (true, { w with target := some w.source })

/-- Source: `bool writeCRCToFile(filename, crc)`: `seekp(-4, end)` fails on a file under
four bytes, and the `write` after it then does nothing; the function returns
`true` either way. -/
def writeCRCToFile (file : List Nat) (crc : Nat) : Bool × List Nat :=
  let f0 := FStream.opened file
  let f1 : FStream := if file.length < 4 then { f0 with failed := true } else f0
  let bytes := [(crc >>> 24) &&& 0xFF, (crc >>> 16) &&& 0xFF, (crc >>> 8) &&& 0xFF, crc &&& 0xFF]
  (true, (f1.write (file.length - 4) bytes).bytes)

/-! ## The bit reader (`BigEndianBitReader.h`) -/

/-- The bit at stream position `p`: bit `7 - p % 8` of byte `p / 8`
(within each byte, position 0 is the most significant bit). -/
def bitAt (bytes : List Nat) (p : Nat) : Nat :=
  (bytes.getD (p / 8) 0 >>> (7 - p % 8)) % 2

/-- Modelled from the spec: `BigEndianBitReader::readBits`, whose header
`BigEndianBitReader.h` is not among the sources. Spec 4.1: extracts the bits
of `[bitOffset, bitOffset+bitWidth)` in big-endian order (the first bit read is
the most significant of the result), returns them right-aligned, and fails
with `OutOfRange` if the bit range exceeds the stream's length. -/
def readBits (bytes : List Nat) (bitOffset bitWidth : Nat) : Except Failure Nat :=
  if bitOffset + bitWidth > 8 * bytes.length then .error .outOfRange
  else .ok ((List.range bitWidth).foldl (fun acc i => 2 * acc + bitAt bytes (bitOffset + i)) 0)

/-- Modelled from the spec: `BigEndianBitReader::readUInt32` of the absent
header. Spec 4.1: a fixed-width big-endian 4-byte read, equivalent to
`readBits(stream, byteOffset*8, 32)`. -/
def readUInt32 (bytes : List Nat) (byteOffset : Nat) : Except Failure Nat :=
  readBits bytes (byteOffset * 8) 32

/-- The two operations `main.cpp` uses from `BigEndianBitReader.h`, on the
bytes of the file the reader was built over. The header is not among the
sources, so the functions of `main.cpp` that call it take it as a parameter. -/
structure BitReader where
  readBits : List Nat → Nat → Nat → Except Failure Nat
  readUInt32 : List Nat → Nat → Except Failure Nat

/-- The reader as the spec describes it. -/
def specReader : BitReader := { readBits := readBits, readUInt32 := readUInt32 }

/-! ## main (main.cpp 11-28, 142-225) -/

/-- Source: `constexpr size_t FINISH_TIME_BASE = 0x04 * 8;` -/
def FINISH_TIME_BASE : Nat := 0x04 * 8

/-- Source: `constexpr uint32_t RKGD_MAGIC = 1380665156;` -/
def RKGD_MAGIC : Nat := 1380665156

/-- Zero padding to width `w`, as `std::setfill` with `std::setw(w)` prints `n`. -/
def zeroPad (w n : Nat) : String :=
  let digits := toString n
  String.mk (List.replicate (w - digits.length) '0') ++ digits

/-- Source: `std::string finishTimeString(BigEndianBitReader& ghostReader)`; each result
of `readBits` is stored in a `uint16_t`. A failing read leaves the function. -/
def finishTimeString (ghostReader : BitReader) (ghost : List Nat) : Except Failure String := do
  let minutes := (← ghostReader.readBits ghost FINISH_TIME_BASE 7) % 65536
  let seconds := (← ghostReader.readBits ghost (FINISH_TIME_BASE + 7) 7) % 65536
  let milliseconds := (← ghostReader.readBits ghost (FINISH_TIME_BASE + 14) 10) % 65536
  pure (zeroPad 2 minutes ++ ":" ++ zeroPad 2 seconds ++ "." ++ zeroPad 3 milliseconds)

/-- How a run of `main` ends. -/
inductive Exit where
  /-- Exit code 0 after "Successfully wrote to ..." -/
  | success
  /-- Exit code 1 after the "not a valid RKG" message -/
  | notValidRkg
  /-- a failure of the reader, which `main` does not handle -/
  | readerFailure
  /-- Exit code 1 after "Failed to copy file!" -/
  | copyFailed
  /-- a failure raised by `writeBits`, which `main` does not handle -/
  | writeFailure
  /-- Exit code 1 after "Error computing CRC32: ..." -/
  | crcError
  /-- the loop of `crc32` never exits -/
  | hangs
  /-- Exit code 1 after "Failed to write CRC32 into file!" -/
  | crcWriteFailed
deriving DecidableEq

/-- Source: `int main(argc, argv)` from the point where `argv[1]` names an existing
file with contents `ghost`; `minutes`, `seconds`, `milliseconds` are the three
`uint16_t` values read from standard input. Opening, copying and reopening
succeed. The result is the way the run ends and the two files afterwards. -/
def main (ghostReader : BitReader) (ghost : List Nat) (minutes seconds milliseconds : Nat) :
    Exit × World :=
  let w0 : World := { source := ghost, target := none }
  match ghostReader.readUInt32 w0.source 0 with
  | .error _ => (.readerFailure, w0)
  | .ok magic =>
    if magic ≠ RKGD_MAGIC then (.notValidRkg, w0)
    else
      match finishTimeString ghostReader w0.source with
      | .error _ => (.readerFailure, w0)
      | .ok _ =>
        let (copied, w1) := copyFile w0
        if !copied then (.copyFailed, w1)
        else
          let ghostFileCopy := FStream.opened (w1.target.getD [])
          match (do
              let f1 ← writeBits ghostFileCopy minutes FINISH_TIME_BASE 7
              let f2 ← writeBits f1 seconds (FINISH_TIME_BASE + 7) 7
              writeBits f2 milliseconds (FINISH_TIME_BASE + 14) 10) with
          | .error _ => (.writeFailure, w1)
          | .ok f3 =>
            let w2 : World := { w1 with target := some f3.bytes }
            match crc32 f3 with
            | none => (.hangs, w2)
            | some (.error _) => (.crcError, w2)
            | some (.ok calculatedCRC) =>
              let (written, out) := writeCRCToFile f3.bytes calculatedCRC
              let w3 : World := { w2 with target := some out }
              if !written then (.crcWriteFailed, w3) else (.success, w3)

/-! ## Definitions used to state and prove the properties -/

deriving instance DecidableEq for Except

/-- The bit at stream position `p` as a Boolean. -/
def bitB (bytes : List Nat) (p : Nat) : Bool :=
  (bytes.getD (p / 8) 0).testBit (7 - p % 8)

/-- The window `writeBits` reads, modifies and writes back. -/
def window (bytes : List Nat) (bitOffset bitCount : Nat) : List Nat :=
  (bytes.drop (bitOffset / 8)).take ((bitOffset % 8 + bitCount + 7) / 8)

/-- Rounds `0 .. k` of the inner loop of `makeCRCTable`. -/
def crcRounds (k n : Nat) : Nat :=
  (List.range k).foldl (fun c _ => crcRound c) n

/-- One bit of the reflected CRC-32, least significant bit first: shift right,
and xor the polynomial `0xEDB88320` in when the bit shifted out was set. -/
def crcBitStep (crc : Nat) : Nat :=
  if crc % 2 = 1 then (crc / 2) ^^^ 0xEDB88320 else crc / 2

/-- One byte of the reflected CRC-32, processed bit by bit. -/
def crcByteStep (crc b : Nat) : Nat :=
  Nat.iterate crcBitStep 8 (crc ^^^ b)

/-- The standard reflected CRC-32 as the spec words it: initial value
`0xFFFFFFFF`, every byte processed bit by bit, final xor `0xFFFFFFFF`. -/
def crc32Reference (data : List Nat) : Nat :=
  data.foldl crcByteStep 0xFFFFFFFF ^^^ 0xFFFFFFFF

/-- The value `crc32` computes over a payload: the table-driven fold, then the
final xor. -/
def crcOfPayload (data : List Nat) : Nat :=
  data.foldl (crcUpdate makeCRCTable) 0xFFFFFFFF ^^^ 0xFFFFFFFF

/-- A byte sequence read as one big-endian unsigned number. -/
def bigEndian (bytes : List Nat) : Nat :=
  bytes.foldl (fun acc b => 256 * acc + b) 0

/-- The four bytes `writeCRCToFile` stores, most significant first. -/
def crcBytes (crc : Nat) : List Nat :=
  [(crc >>> 24) &&& 0xFF, (crc >>> 16) &&& 0xFF, (crc >>> 8) &&& 0xFF, crc &&& 0xFF]

/-- The ASCII bytes of "123456789", the standard CRC check input. -/
def checkInput : List Nat := [0x31, 0x32, 0x33, 0x34, 0x35, 0x36, 0x37, 0x38, 0x39]

/-- A 13-byte record: magic "RKGD", the fields (2, 15, 500) in bytes 4..6, two
more payload bytes and an unset checksum slot. -/
def scenarioSource : List Nat :=
  [0x52, 0x4B, 0x47, 0x44, 0x04, 0x3D, 0xF4, 0xAA, 0x55, 0x00, 0x00, 0x00, 0x00]

/-- The copy `main` commits for `scenarioSource` edited with (1, 30, 999). -/
def scenarioCommitted : List Nat :=
  [0x52, 0x4B, 0x47, 0x44, 0x02, 0x7B, 0xE7, 0xAA, 0x55, 0xFE, 0x85, 0xE3, 0xA8]

/-- A 7-byte record: magic "RKGD" and the fields (2, 15, 500); its last four
bytes, the checksum slot, are bytes 3..6. -/
def shortSource : List Nat := [0x52, 0x4B, 0x47, 0x44, 0x04, 0x3D, 0xF4]

/-- The copy `main` commits for `shortSource` edited with (1, 30, 999). -/
def shortCommitted : List Nat := [0x52, 0x4B, 0x47, 0x6B, 0x4C, 0x61, 0x31]

/-- A 13-byte record whose first four bytes are 0x52 0x47 0x4B 0x44. -/
def swappedMagicSource : List Nat :=
  [0x52, 0x47, 0x4B, 0x44, 0x04, 0x3D, 0xF4, 0xAA, 0x55, 0x00, 0x00, 0x00, 0x00]

/-! ## Further definitions from the source -/

/-- The name of the copy, main.cpp 178-183: the characters `argv[1][i]` for
`i < strlen(argv[1]) - 4`, followed by "_OUTPUT.rkg". `argv1` is the C string
`argv[1]` as its sequence of characters. The loop bound is a `size_t`: on a
string under four characters it wraps around and the loop indexes far past
the string, which is undefined; `none` stands for that. -/
def copyFileName (argv1 : List Char) : Option (List Char) :=
  if argv1.length < 4 then none
  else
    some ((List.range (argv1.length - 4)).map (fun i => argv1.getD i ' ')
      ++ "_OUTPUT.rkg".toList)

/-- The local `bytesNeeded` of `writeBits` (main.cpp 34-38): the size of the
buffer that is read, patched and written back. -/
def bytesNeeded (bitOffset bitCount : Nat) : Nat :=
  (bitOffset % 8 + bitCount + 7) / 8

/-- The local `bufByte` of iteration `i` of the loop of `writeBits`
(main.cpp 50-51). -/
def bufByte (bitInByte i : Nat) : Nat :=
  (bitInByte + i) / 8

/-- The local `bufBit` of iteration `i` of the loop of `writeBits`
(main.cpp 52). -/
def bufBit (bitInByte i : Nat) : Nat :=
  7 - (bitInByte + i) % 8

/-- The 24-bit number the three fields of `main` form: minutes in the top seven
bits, seconds in the next seven, milliseconds in the low ten. -/
def packedFields (m s ms : Nat) : Nat :=
  (m % 128) * 2 ^ 17 + (s % 128) * 2 ^ 10 + ms % 1024

/-! ## Lemmas -/

theorem bitAt_eq_toNat (bytes : List Nat) (p : Nat) :
    bitAt bytes p = (bitB bytes p).toNat := by
  unfold bitAt bitB
  rw [Nat.toNat_testBit, Nat.shiftRight_eq_div_pow]

theorem getD_set_zero (l : List Nat) (j k x : Nat) :
    (l.set j x).getD k 0 = if j = k ∧ j < l.length then x else l.getD k 0 := by
  simp only [List.getD_eq_getElem?_getD, List.getElem?_set]
  by_cases h : j = k
  · subst h
    by_cases h2 : j < l.length
    · simp [h2]
    · simp [h2, List.getElem?_eq_none (Nat.le_of_not_lt h2)]
  · simp [h]

/-- Storing one bit into a byte: bit `k` becomes `c`, the other seven stay. -/
theorem testBit_store (b v s k j : Nat) (hk : k ≤ 7) (hj : j ≤ 7) :
    ((b &&& (0xFF ^^^ (1 <<< k))) ||| (((v >>> s) &&& 1) <<< k)).testBit j
      = if j = k then v.testBit s else b.testBit j := by
  have h255 : Nat.testBit 255 j = true := by
    interval_cases j <;> decide
  have hv : ((v >>> s) &&& 1) = (v.testBit s).toNat := by
    rw [Nat.and_one_is_mod, Nat.toNat_testBit, Nat.shiftRight_eq_div_pow]
  simp only [Nat.testBit_or, Nat.testBit_and, Nat.testBit_xor, Nat.testBit_shiftLeft, h255, hv,
    Nat.one_shiftLeft, Nat.testBit_two_pow]
  by_cases hjk : j = k
  · subst hjk
    cases hvs : v.testBit s <;> simp
  · have h1 : (k = j) = False := by simp; omega
    simp only [hjk, h1, if_false]
    by_cases hge : j ≥ k
    · have h0 : Nat.testBit 1 (j - k) = false := by
        rw [show (1 : Nat) = 2 ^ 0 from rfl, Nat.testBit_two_pow]
        simp; omega
      cases hvs : v.testBit s <;> simp [h0]
    · simp [hge]

theorem store_lt (b v s k : Nat) (hk : k ≤ 7) :
    ((b &&& (0xFF ^^^ (1 <<< k))) ||| (((v >>> s) &&& 1) <<< k)) < 256 := by
  have h1 : (1 : Nat) <<< k < 2 ^ 8 := by interval_cases k <;> decide
  have h2 : (0xFF ^^^ (1 <<< k)) < 2 ^ 8 := Nat.xor_lt_two_pow (by decide) h1
  have h3 : (b &&& (0xFF ^^^ (1 <<< k))) < 2 ^ 8 := Nat.and_lt_two_pow _ h2
  have h4 : ((v >>> s) &&& 1) <<< k < 2 ^ 8 := by
    have : (v >>> s) &&& 1 < 2 := by rw [Nat.and_one_is_mod]; omega
    have h5 : (v >>> s) &&& 1 = 0 ∨ (v >>> s) &&& 1 = 1 := by omega
    rcases h5 with h5 | h5 <;> rw [h5]
    · simp
    · exact h1
  exact Nat.or_lt_two_pow h3 h4

theorem insertBit_length (v n o : Nat) (buf : List Nat) (i : Nat) :
    (insertBit v n o buf i).length = buf.length := by
  simp [insertBit]

theorem insertBit_wf (v n o : Nat) (buf : List Nat) (i : Nat) (h : WF buf) :
    WF (insertBit v n o buf i) := by
  intro b hb
  simp only [insertBit] at hb
  rcases List.mem_or_eq_of_mem_set hb with hb | hb
  · exact h b hb
  · rw [hb]; exact store_lt _ _ _ _ (by omega)

theorem bitB_insertBit (v n o : Nat) (buf : List Nat) (i q : Nat)
    (h : (o + i) / 8 < buf.length) :
    bitB (insertBit v n o buf i) q
      = if q = o + i then v.testBit (n - 1 - i) else bitB buf q := by
  unfold bitB insertBit
  simp only [getD_set_zero]
  by_cases hb : (o + i) / 8 = q / 8
  · rw [if_pos ⟨hb, h⟩, testBit_store _ _ _ _ _ (by omega) (by omega), hb]
    by_cases hq : q = o + i
    · simp [hq]
    · have : ¬ (7 - q % 8 = 7 - (o + i) % 8) := by omega
      simp [hq, this]
  · have hq : ¬ q = o + i := by intro h'; subst h'; exact hb rfl
    simp [hb, hq]

theorem insertBits_upto (v n o : Nat) (buf : List Nat) (h : o + n ≤ 8 * buf.length) :
    ∀ k, k ≤ n →
      ((List.range k).foldl (insertBit v n o) buf).length = buf.length ∧
      ∀ q, bitB ((List.range k).foldl (insertBit v n o) buf) q
        = if o ≤ q ∧ q < o + k then v.testBit (n - 1 - (q - o)) else bitB buf q := by
  intro k
  induction k with
  | zero =>
    intro _
    refine ⟨by simp, fun q => ?_⟩
    have : ¬ (o ≤ q ∧ q < o + 0) := by omega
    rw [if_neg this]; rfl
  | succ k ih =>
    intro hk
    obtain ⟨hlen, hbits⟩ := ih (by omega)
    rw [List.range_succ, List.foldl_append]
    simp only [List.foldl_cons, List.foldl_nil]
    refine ⟨by rw [insertBit_length, hlen], fun q => ?_⟩
    rw [bitB_insertBit _ _ _ _ _ _ (by rw [hlen]; omega), hbits]
    by_cases hq : q = o + k
    · subst hq
      have : o ≤ o + k ∧ o + k < o + (k + 1) := by omega
      simp [this]
    · by_cases hin : o ≤ q ∧ q < o + k
      · have : o ≤ q ∧ q < o + (k + 1) := by omega
        simp [hq, hin, this]
      · have : ¬ (o ≤ q ∧ q < o + (k + 1)) := by omega
        simp [hq, hin, this]

theorem insertBits_length (v n o : Nat) (buf : List Nat) (h : o + n ≤ 8 * buf.length) :
    (insertBits v n o buf).length = buf.length :=
  (insertBits_upto v n o buf h n (Nat.le_refl n)).1

theorem bitB_insertBits (v n o : Nat) (buf : List Nat) (h : o + n ≤ 8 * buf.length) (q : Nat) :
    bitB (insertBits v n o buf) q
      = if o ≤ q ∧ q < o + n then v.testBit (n - 1 - (q - o)) else bitB buf q :=
  (insertBits_upto v n o buf h n (Nat.le_refl n)).2 q

theorem foldl_insertBit_wf (v n o : Nat) (l : List Nat) :
    ∀ buf, WF buf → WF (l.foldl (insertBit v n o) buf) := by
  induction l with
  | nil => intro buf h; simpa using h
  | cons i l ih => intro buf h; exact ih _ (insertBit_wf v n o buf i h)

theorem insertBits_wf (v n o : Nat) (buf : List Nat) (h : WF buf) :
    WF (insertBits v n o buf) :=
  foldl_insertBit_wf v n o _ buf h

theorem getD_splice (bs data : List Nat) (pos i : Nat) (h : pos + data.length ≤ bs.length) :
    (bs.take pos ++ List.replicate (pos - bs.length) 0 ++ data
        ++ bs.drop (pos + data.length)).getD i 0
      = if pos ≤ i ∧ i < pos + data.length then data.getD (i - pos) 0 else bs.getD i 0 := by
  have h0 : pos - bs.length = 0 := by omega
  rw [h0]
  simp only [List.replicate_zero, List.append_nil, List.getD_eq_getElem?_getD, List.append_assoc]
  by_cases h1 : i < pos
  · have : ¬ (pos ≤ i ∧ i < pos + data.length) := by omega
    rw [if_neg this, List.getElem?_append_left (by simp; omega), List.getElem?_take_of_lt h1]
  · have hlen : (List.take pos bs).length = pos := by simp; omega
    rw [List.getElem?_append_right (by omega), hlen]
    by_cases h2 : i < pos + data.length
    · rw [if_pos ⟨by omega, h2⟩, List.getElem?_append_left (by omega)]
    · have : ¬ (pos ≤ i ∧ i < pos + data.length) := by omega
      rw [if_neg this, List.getElem?_append_right (by omega), List.getElem?_drop]
      congr 2
      omega

theorem length_splice (bs data : List Nat) (pos : Nat) (h : pos + data.length ≤ bs.length) :
    (bs.take pos ++ List.replicate (pos - bs.length) 0 ++ data
        ++ bs.drop (pos + data.length)).length = bs.length := by
  simp
  omega

theorem getD_window (bs : List Nat) (pos n j : Nat) (hj : j < n) :
    ((bs.drop pos).take n).getD j 0 = bs.getD (pos + j) 0 := by
  simp only [List.getD_eq_getElem?_getD]
  rw [List.getElem?_take_of_lt hj, List.getElem?_drop]

theorem window_length (bytes : List Nat) (o w : Nat) (h : o + w ≤ 8 * bytes.length) :
    (window bytes o w).length = (o % 8 + w + 7) / 8 := by
  simp [window]
  omega

/-- An in-range write on a good stream: the window is read in full, patched
and written back; the stream stays good. -/
theorem writeBits_inRange (f : FStream) (v o w : Nat) (hgood : f.failed = false)
    (hw : w ≠ 0) (h : o + w ≤ 8 * f.bytes.length) :
    writeBits f v o w = .ok
      { bytes := f.bytes.take (o / 8) ++ List.replicate (o / 8 - f.bytes.length) 0
                  ++ insertBits v w (o % 8) (window f.bytes o w)
                  ++ f.bytes.drop (o / 8 + (insertBits v w (o % 8) (window f.bytes o w)).length),
        failed := false } := by
  have hlen := window_length f.bytes o w h
  unfold window at hlen
  have hlen2 : (o % 8 + w + 7) / 8 - (List.take ((o % 8 + w + 7) / 8) (List.drop (o / 8) f.bytes)).length = 0 := by
    rw [hlen]; omega
  simp only [writeBits, if_neg hw, FStream.read, hgood, FStream.write, window, hlen2]
  simp [hlen]

/-- An out-of-range write on a good stream: the read falls short, the stream
fails, nothing is written, and the call returns normally. -/
theorem writeBits_outOfRange (f : FStream) (v o w : Nat) (hgood : f.failed = false)
    (hw : w ≠ 0) (h : 8 * f.bytes.length < o + w) :
    writeBits f v o w = .ok { bytes := f.bytes, failed := true } := by
  have hshort : (List.take ((o % 8 + w + 7) / 8) (List.drop (o / 8) f.bytes)).length
      < (o % 8 + w + 7) / 8 := by
    simp; omega
  have hshort2 : f.bytes.length - o / 8 < (o % 8 + w + 7) / 8 := by omega
  simp only [writeBits, if_neg hw, FStream.read, hgood, FStream.write]
  simp [hshort2]

/-- A write on a failed stream does nothing. -/
theorem writeBits_failed (f : FStream) (v o w : Nat) (hbad : f.failed = true) :
    writeBits f v o w = .ok f := by
  by_cases hw : w = 0
  · simp [writeBits, hw]
  · simp [writeBits, hw, FStream.read, hbad, FStream.write]

/-- The bits of the file after an in-range write on a good stream. -/
theorem bitB_writeBits (f g : FStream) (v o w : Nat) (hgood : f.failed = false)
    (hw : w ≠ 0) (h : o + w ≤ 8 * f.bytes.length) (hg : writeBits f v o w = .ok g) (p : Nat) :
    bitB g.bytes p
      = if o ≤ p ∧ p < o + w then v.testBit (w - 1 - (p - o)) else bitB f.bytes p := by
  rw [writeBits_inRange f v o w hgood hw h] at hg
  injection hg with hg
  subst hg
  have hwl := window_length f.bytes o w h
  have hin : o % 8 + w ≤ 8 * (window f.bytes o w).length := by rw [hwl]; omega
  have hil := insertBits_length v w (o % 8) (window f.bytes o w) hin
  have hfit : o / 8 + (insertBits v w (o % 8) (window f.bytes o w)).length ≤ f.bytes.length := by
    rw [hil, hwl]; omega
  show (List.getD _ (p / 8) 0).testBit (7 - p % 8) = _
  rw [getD_splice _ _ _ _ hfit, hil, hwl]
  by_cases hspan : o / 8 ≤ p / 8 ∧ p / 8 < o / 8 + (o % 8 + w + 7) / 8
  · rw [if_pos hspan]
    have e1 : p / 8 - o / 8 = (p - 8 * (o / 8)) / 8 := by omega
    have e2 : p % 8 = (p - 8 * (o / 8)) % 8 := by omega
    rw [e1, e2]
    have := bitB_insertBits v w (o % 8) (window f.bytes o w) hin (p - 8 * (o / 8))
    unfold bitB at this
    rw [this]
    by_cases hq : o ≤ p ∧ p < o + w
    · have hq2 : o % 8 ≤ p - 8 * (o / 8) ∧ p - 8 * (o / 8) < o % 8 + w := by omega
      rw [if_pos hq, if_pos hq2]
      congr 1
      omega
    · have hq2 : ¬ (o % 8 ≤ p - 8 * (o / 8) ∧ p - 8 * (o / 8) < o % 8 + w) := by omega
      rw [if_neg hq, if_neg hq2]
      unfold window
      rw [getD_window _ _ _ _ (by omega)]
      have e3 : o / 8 + (p - 8 * (o / 8)) / 8 = p / 8 := by omega
      rw [e3, ← e2]
      rfl
  · rw [if_neg hspan]
    have hq : ¬ (o ≤ p ∧ p < o + w) := by omega
    rw [if_neg hq]
    rfl

theorem bitAt_lt_two (bytes : List Nat) (p : Nat) : bitAt bytes p < 2 := by
  unfold bitAt; omega

theorem bitAt_eq_iff (a b : List Nat) (p q : Nat) :
    bitAt a p = bitAt b q ↔ bitB a p = bitB b q := by
  rw [bitAt_eq_toNat, bitAt_eq_toNat]
  cases bitB a p <;> cases bitB b q <;> simp

/-- Big-endian accumulation of the bits of `v` from bit `w - 1` downwards. -/
theorem foldl_bits (bytes : List Nat) (v o w : Nat)
    (hbits : ∀ i, i < w → bitAt bytes (o + i) = (v.testBit (w - 1 - i)).toNat) :
    ∀ k, k ≤ w →
      (List.range k).foldl (fun acc i => 2 * acc + bitAt bytes (o + i)) 0
        = (v / 2 ^ (w - k)) % 2 ^ k := by
  intro k
  induction k with
  | zero => intro _; simp [Nat.mod_one]
  | succ k ih =>
    intro hk
    rw [List.range_succ, List.foldl_append, ih (by omega)]
    simp only [List.foldl_cons, List.foldl_nil]
    rw [hbits k (by omega), Nat.toNat_testBit]
    have e1 : w - k = (w - 1 - k) + 1 := by omega
    have e2 : w - (k + 1) = w - 1 - k := by omega
    have hdiv : v / 2 ^ (w - k) = v / 2 ^ (w - 1 - k) / 2 := by
      rw [e1, Nat.pow_succ, Nat.div_div_eq_div_mul]
    rw [hdiv, e2, Nat.pow_succ', Nat.mod_mul]
    omega

theorem wf_append {a b : List Nat} (ha : WF a) (hb : WF b) : WF (a ++ b) := by
  intro x hx
  rcases List.mem_append.mp hx with h | h
  · exact ha x h
  · exact hb x h

theorem wf_take {a : List Nat} (n : Nat) (ha : WF a) : WF (a.take n) :=
  fun x hx => ha x (List.mem_of_mem_take hx)

theorem wf_drop {a : List Nat} (n : Nat) (ha : WF a) : WF (a.drop n) :=
  fun x hx => ha x (List.mem_of_mem_drop hx)

theorem wf_replicate_zero (n : Nat) : WF (List.replicate n 0) := by
  intro x hx
  rw [(List.mem_replicate.mp hx).2]; decide

/-- The three ways a call of `writeBits` can go. -/
theorem writeBits_cases (f : FStream) (v o w : Nat) :
    writeBits f v o w = .ok f ∨
    writeBits f v o w = .ok { bytes := f.bytes, failed := true } ∨
    (f.failed = false ∧ w ≠ 0 ∧ o + w ≤ 8 * f.bytes.length ∧
      writeBits f v o w = .ok
        { bytes := f.bytes.take (o / 8) ++ List.replicate (o / 8 - f.bytes.length) 0
                    ++ insertBits v w (o % 8) (window f.bytes o w)
                    ++ f.bytes.drop (o / 8 + (insertBits v w (o % 8) (window f.bytes o w)).length),
          failed := false }) := by
  by_cases hw : w = 0
  · left; simp [writeBits, hw]
  · cases hbad : f.failed with
    | true => left; exact writeBits_failed f v o w hbad
    | false =>
      by_cases h : o + w ≤ 8 * f.bytes.length
      · right; right; exact ⟨rfl, hw, h, writeBits_inRange f v o w hbad hw h⟩
      · right; left; exact writeBits_outOfRange f v o w hbad hw (by omega)

theorem writeBits_length (f g : FStream) (v o w : Nat) (hg : writeBits f v o w = .ok g) :
    g.bytes.length = f.bytes.length := by
  rcases writeBits_cases f v o w with h | h | ⟨_, _, hin, h⟩
  · rw [h] at hg; injection hg with hg; rw [← hg]
  · rw [h] at hg; injection hg with hg; rw [← hg]
  · rw [h] at hg; injection hg with hg; rw [← hg]
    have hwl := window_length f.bytes o w hin
    have hil := insertBits_length v w (o % 8) (window f.bytes o w) (by rw [hwl]; omega)
    exact length_splice _ _ _ (by rw [hil, hwl]; omega)

theorem writeBits_wf (f g : FStream) (v o w : Nat) (hg : writeBits f v o w = .ok g)
    (hwf : WF f.bytes) : WF g.bytes := by
  rcases writeBits_cases f v o w with h | h | ⟨_, _, _, h⟩
  · rw [h] at hg; injection hg with hg; rw [← hg]; exact hwf
  · rw [h] at hg; injection hg with hg; rw [← hg]; exact hwf
  · rw [h] at hg; injection hg with hg; rw [← hg]
    exact wf_append (wf_append (wf_append (wf_take _ hwf) (wf_replicate_zero _))
      (insertBits_wf _ _ _ _ (wf_take _ (wf_drop _ hwf)))) (wf_drop _ hwf)

/-- Bytes that hold no bit of the written range keep their value. -/
theorem getD_writeBits_outside (f g : FStream) (v o w : Nat) (hg : writeBits f v o w = .ok g)
    (i : Nat) (hi : i < o / 8 ∨ (o + w - 1) / 8 < i) :
    g.bytes.getD i 0 = f.bytes.getD i 0 := by
  rcases writeBits_cases f v o w with h | h | ⟨_, hw, hin, h⟩
  · rw [h] at hg; injection hg with hg; rw [← hg]
  · rw [h] at hg; injection hg with hg; rw [← hg]
  · rw [h] at hg; injection hg with hg; rw [← hg]
    have hwl := window_length f.bytes o w hin
    have hil := insertBits_length v w (o % 8) (window f.bytes o w) (by rw [hwl]; omega)
    show List.getD _ i 0 = _
    rw [getD_splice _ _ _ _ (by rw [hil, hwl]; omega), hil, hwl]
    have : ¬ (o / 8 ≤ i ∧ i < o / 8 + (o % 8 + w + 7) / 8) := by omega
    rw [if_neg this]

/-- Bits outside the written range keep their value, whatever the call does. -/
theorem bitB_writeBits_outside (f g : FStream) (v o w : Nat) (hg : writeBits f v o w = .ok g)
    (p : Nat) (hp : ¬ (o ≤ p ∧ p < o + w)) :
    bitB g.bytes p = bitB f.bytes p := by
  rcases writeBits_cases f v o w with h | h | ⟨hgood, hw, hin, _⟩
  · rw [h] at hg; injection hg with hg; rw [← hg]
  · rw [h] at hg; injection hg with hg; rw [← hg]
  · rw [bitB_writeBits f g v o w hgood hw hin hg p, if_neg hp]

/-- The reader's result is determined by the bits of the range it reads. -/
theorem readBits_congr (a b : List Nat) (o w : Nat) (hlen : a.length = b.length)
    (hbits : ∀ p, o ≤ p → p < o + w → bitB a p = bitB b p) :
    readBits a o w = readBits b o w := by
  unfold readBits
  rw [hlen]
  by_cases h : o + w > 8 * b.length
  · simp [h]
  · simp only [h, if_false]
    congr 1
    have key : ∀ k, k ≤ w →
        (List.range k).foldl (fun acc i => 2 * acc + bitAt a (o + i)) 0
          = (List.range k).foldl (fun acc i => 2 * acc + bitAt b (o + i)) 0 := by
      intro k
      induction k with
      | zero => intro _; rfl
      | succ k ih =>
        intro hk
        rw [List.range_succ, List.foldl_append, List.foldl_append, ih (by omega)]
        simp only [List.foldl_cons, List.foldl_nil]
        rw [(bitAt_eq_iff a b (o + k) (o + k)).mpr (hbits (o + k) (by omega) (by omega))]
    exact key w (Nat.le_refl w)

/-- Reading back the range just written on a good stream yields the low
`w` bits of the value. -/
theorem readBits_writeBits (f g : FStream) (v o w : Nat) (hgood : f.failed = false)
    (hw : w ≠ 0) (hin : o + w ≤ 8 * f.bytes.length) (hg : writeBits f v o w = .ok g) :
    readBits g.bytes o w = .ok (v % 2 ^ w) := by
  have hlen := writeBits_length f g v o w hg
  unfold readBits
  rw [hlen, if_neg (by omega)]
  congr 1
  have hbits : ∀ i, i < w → bitAt g.bytes (o + i) = (v.testBit (w - 1 - i)).toNat := by
    intro i hi
    rw [bitAt_eq_toNat, bitB_writeBits f g v o w hgood hw hin hg, if_pos (by omega)]
    congr 2
    omega
  rw [foldl_bits g.bytes v o w hbits w (Nat.le_refl w)]
  simp

theorem crcRound_eq_bitStep (c : Nat) : crcRound c = crcBitStep c := by
  unfold crcRound crcBitStep
  rw [Nat.and_one_is_mod, Nat.shiftRight_eq_div_pow, Nat.pow_one, Nat.xor_comm]
  by_cases h : c % 2 = 1
  · simp [h]
  · have : c % 2 = 0 := by omega
    simp [this]

theorem crcRound_xor (a b : Nat) : crcRound (a ^^^ b) = crcRound a ^^^ crcRound b := by
  have hs : (a ^^^ b) >>> 1 = (a >>> 1) ^^^ (b >>> 1) := by
    apply Nat.eq_of_testBit_eq; intro i
    simp [Nat.testBit_xor, Nat.testBit_shiftRight]
  have hm : (a ^^^ b) % 2 = (a + b) % 2 := Nat.xor_mod_two_eq
  unfold crcRound
  simp only [Nat.and_one_is_mod, hs, hm]
  rcases Nat.mod_two_eq_zero_or_one a with ha | ha <;>
    rcases Nat.mod_two_eq_zero_or_one b with hb | hb
  · have : (a + b) % 2 = 0 := by omega
    simp [ha, hb, this]
  · have : (a + b) % 2 = 1 := by omega
    simp only [ha, hb, this]
    simp only [ne_eq, not_true_eq_false, if_false, one_ne_zero, not_false_eq_true, if_true]
    rw [← Nat.xor_assoc, Nat.xor_comm 0xEDB88320 (a >>> 1), Nat.xor_assoc]
  · have : (a + b) % 2 = 1 := by omega
    simp only [ha, hb, this]
    simp only [ne_eq, not_true_eq_false, if_false, one_ne_zero, not_false_eq_true, if_true]
    rw [Nat.xor_assoc]
  · have : (a + b) % 2 = 0 := by omega
    simp only [ha, hb, this]
    simp only [ne_eq, not_true_eq_false, if_false, one_ne_zero, not_false_eq_true, if_true]
    rw [Nat.xor_assoc, ← Nat.xor_assoc (a >>> 1) 0xEDB88320 (b >>> 1),
      Nat.xor_comm (a >>> 1) 0xEDB88320, Nat.xor_assoc, ← Nat.xor_assoc, Nat.xor_self,
      Nat.zero_xor]

theorem crcRounds_succ (k n : Nat) : crcRounds (k + 1) n = crcRound (crcRounds k n) := by
  unfold crcRounds
  rw [List.range_succ, List.foldl_append]
  rfl

theorem crcRounds_xor (k a b : Nat) :
    crcRounds k (a ^^^ b) = crcRounds k a ^^^ crcRounds k b := by
  induction k with
  | zero => rfl
  | succ k ih => rw [crcRounds_succ, crcRounds_succ, crcRounds_succ, ih, crcRound_xor]

theorem crcRound_double (y : Nat) : crcRound (y <<< 1) = y := by
  unfold crcRound
  have h1 : (y <<< 1) &&& 1 = 0 := by
    rw [Nat.and_one_is_mod, Nat.shiftLeft_eq]; omega
  have h2 : (y <<< 1) >>> 1 = y := by
    rw [Nat.shiftLeft_eq, Nat.shiftRight_eq_div_pow]; omega
  simp [h1, h2]

theorem crcRounds_shiftLeft (k : Nat) : ∀ y, crcRounds k (y <<< k) = y := by
  induction k with
  | zero => intro y; rfl
  | succ k ih =>
    intro y
    rw [crcRounds_succ]
    have : y <<< (k + 1) = (y <<< 1) <<< k := by
      rw [Nat.shiftLeft_eq, Nat.shiftLeft_eq, Nat.shiftLeft_eq, Nat.pow_succ]
      ring
    rw [this, ih, crcRound_double]

theorem split_low_byte (x : Nat) : x = (x &&& 0xFF) ^^^ ((x >>> 8) <<< 8) := by
  apply Nat.eq_of_testBit_eq; intro i
  have h255 : (0xFF : Nat) = 2 ^ 8 - 1 := by decide
  rw [Nat.testBit_xor, h255, Nat.and_pow_two_sub_one_eq_mod, Nat.testBit_mod_two_pow,
    Nat.testBit_shiftLeft, Nat.testBit_shiftRight]
  by_cases hi : i < 8
  · have : ¬ i ≥ 8 := by omega
    simp [hi, this]
  · have h8 : i ≥ 8 := by omega
    have : 8 + (i - 8) = i := by omega
    simp [hi, h8, this]

/-- Eight rounds split into the low byte, which goes through the polynomial
reduction, and the rest, which is only shifted. -/
theorem crcRounds8_split (x : Nat) :
    crcRounds8 x = (x >>> 8) ^^^ crcRounds8 (x &&& 0xFF) := by
  show crcRounds 8 x = (x >>> 8) ^^^ crcRounds 8 (x &&& 0xFF)
  conv_lhs => rw [split_low_byte x]
  rw [crcRounds_xor, crcRounds_shiftLeft, Nat.xor_comm]

theorem makeCRCTable_length : makeCRCTable.length = 256 := by
  simp [makeCRCTable]

theorem makeCRCTable_getD (i : Nat) (hi : i < 256) :
    makeCRCTable.getD i 0 = crcRounds8 i := by
  unfold makeCRCTable
  rw [List.getD_eq_getElem?_getD, List.getElem?_map, List.getElem?_range hi]
  rfl

/-- The table-driven update of `crc32` is eight bitwise rounds on `crc ^ byte`. -/
theorem crcUpdate_eq_rounds (crc b : Nat) :
    crcUpdate makeCRCTable crc b = crcRounds8 (crc ^^^ (b % 256)) := by
  unfold crcUpdate
  have hidx : (crc ^^^ (b % 256)) &&& 0xFF < 256 :=
    Nat.and_lt_two_pow _ (by decide : (0xFF : Nat) < 2 ^ 8)
  have hshift : (crc ^^^ (b % 256)) >>> 8 = crc >>> 8 := by
    apply Nat.eq_of_testBit_eq; intro i
    rw [Nat.testBit_shiftRight, Nat.testBit_shiftRight, Nat.testBit_xor]
    have : (b % 256).testBit (8 + i) = false := by
      apply Nat.testBit_lt_two_pow
      calc b % 256 < 2 ^ 8 := Nat.mod_lt _ (by decide)
        _ ≤ 2 ^ (8 + i) := Nat.pow_le_pow_right (by decide) (by omega)
    simp [this]
  rw [makeCRCTable_getD _ hidx, crcRounds8_split (crc ^^^ (b % 256)), hshift]

theorem crcRounds8_eq_iterate (x : Nat) : crcRounds8 x = Nat.iterate crcBitStep 8 x := by
  simp [crcRounds8, List.range, List.range.loop, crcRound_eq_bitStep, Nat.iterate]

theorem crcUpdate_eq_byteStep (crc b : Nat) (hb : b < 256) :
    crcUpdate makeCRCTable crc b = crcByteStep crc b := by
  rw [crcUpdate_eq_rounds, Nat.mod_eq_of_lt hb, crcRounds8_eq_iterate]
  rfl

theorem read_good (f : FStream) (pos n : Nat) (hgood : f.failed = false)
    (h : pos + n ≤ f.bytes.length) :
    f.read pos n = ((f.bytes.drop pos).take n, f) := by
  have hlen : ((f.bytes.drop pos).take n).length = n := by simp; omega
  unfold FStream.read
  rw [hgood]
  simp only [Bool.false_eq_true, if_false, hlen, Nat.lt_irrefl, decide_False]
  cases f
  simp_all

/-- The chunked loop terminates and is one left-to-right fold of the payload. -/
theorem crcLoop_eq (bufferSize : Nat) (tbl : List Nat) (hbuf : 0 < bufferSize) (f : FStream)
    (hgood : f.failed = false) :
    ∀ fuel pos bytesToRead crc, bytesToRead < fuel → pos + bytesToRead ≤ f.bytes.length →
      crcLoop bufferSize tbl fuel f pos bytesToRead crc
        = some (((f.bytes.drop pos).take bytesToRead).foldl (crcUpdate tbl) crc) := by
  intro fuel
  induction fuel with
  | zero => intro pos n crc h; omega
  | succ fuel ih =>
    intro pos n crc hfuel hfit
    unfold crcLoop
    by_cases hn : n = 0
    · simp [hn]
    · rw [if_neg hn]
      have hchunk : pos + min n bufferSize ≤ f.bytes.length := by omega
      simp only [read_good f pos (min n bufferSize) hgood hchunk]
      have hlen : ((f.bytes.drop pos).take (min n bufferSize)).length = min n bufferSize := by
        simp; omega
      simp only [hlen]
      rw [ih (pos + min n bufferSize) (n - min n bufferSize) _ (by omega) (by omega)]
      congr 1
      have hsplit : n = min n bufferSize + (n - min n bufferSize) := by omega
      conv_rhs => rw [hsplit, List.take_add, List.foldl_append, List.drop_drop]

theorem crc32With_eq (bufferSize : Nat) (hbuf : 0 < bufferSize) (f : FStream)
    (hgood : f.failed = false) (hlen : 4 ≤ f.bytes.length) :
    crc32With bufferSize f = some (.ok (crcOfPayload (f.bytes.take (f.bytes.length - 4)))) := by
  unfold crc32With
  have hc : ¬ (f.failed = true ∨ f.bytes.length < 4) := by
    rw [hgood]; simp; omega
  simp only [hc, if_false]
  rw [crcLoop_eq bufferSize makeCRCTable hbuf f hgood _ 0 _ _ (by omega) (by omega)]
  simp [crcOfPayload]

theorem crc32_eq (f : FStream) (hgood : f.failed = false) (hlen : 4 ≤ f.bytes.length) :
    crc32 f = some (.ok (crcOfPayload (f.bytes.take (f.bytes.length - 4)))) :=
  crc32With_eq 4096 (by decide) f hgood hlen

theorem crc32_tooSmall (f : FStream) (h : f.failed = true ∨ f.bytes.length < 4) :
    crc32 f = some (.error .tooSmall) := by
  unfold crc32 crc32With
  simp only [h, if_true]

theorem foldl_crcUpdate_eq_byteStep (data : List Nat) (hwf : WF data) :
    ∀ crc, data.foldl (crcUpdate makeCRCTable) crc = data.foldl crcByteStep crc := by
  induction data with
  | nil => intro crc; rfl
  | cons b rest ih =>
    intro crc
    simp only [List.foldl_cons]
    rw [crcUpdate_eq_byteStep crc b (hwf b (List.mem_cons_self _ _)),
      ih (fun x hx => hwf x (List.mem_cons_of_mem _ hx))]

theorem crcOfPayload_eq_reference (data : List Nat) (hwf : WF data) :
    crcOfPayload data = crc32Reference data := by
  unfold crcOfPayload crc32Reference
  rw [foldl_crcUpdate_eq_byteStep data hwf]

theorem crcRound_lt (c : Nat) (h : c < 2 ^ 32) : crcRound c < 2 ^ 32 := by
  have hs : c >>> 1 < 2 ^ 32 := by
    rw [Nat.shiftRight_eq_div_pow]
    exact Nat.lt_of_le_of_lt (Nat.div_le_self _ _) h
  unfold crcRound
  split
  · exact Nat.xor_lt_two_pow (by decide) hs
  · exact hs

theorem crcRounds_lt (k : Nat) : ∀ c, c < 2 ^ 32 → crcRounds k c < 2 ^ 32 := by
  induction k with
  | zero => intro c h; exact h
  | succ k ih => intro c h; rw [crcRounds_succ]; exact crcRound_lt _ (ih c h)

theorem crcUpdate_lt (crc b : Nat) (h : crc < 2 ^ 32) :
    crcUpdate makeCRCTable crc b < 2 ^ 32 := by
  rw [crcUpdate_eq_rounds]
  have hb : b % 256 < 2 ^ 32 := Nat.lt_of_lt_of_le (Nat.mod_lt _ (by decide)) (by decide)
  exact crcRounds_lt 8 _ (Nat.xor_lt_two_pow h hb)

theorem foldl_crcUpdate_lt (data : List Nat) :
    ∀ crc, crc < 2 ^ 32 → data.foldl (crcUpdate makeCRCTable) crc < 2 ^ 32 := by
  induction data with
  | nil => intro crc h; exact h
  | cons b rest ih => intro crc h; exact ih _ (crcUpdate_lt crc b h)

theorem crcOfPayload_lt (data : List Nat) : crcOfPayload data < 2 ^ 32 :=
  Nat.xor_lt_two_pow (foldl_crcUpdate_lt data _ (by decide)) (by decide)

theorem bigEndian_crcBytes (crc : Nat) (h : crc < 2 ^ 32) : bigEndian (crcBytes crc) = crc := by
  have h255 : (0xFF : Nat) = 2 ^ 8 - 1 := by decide
  simp only [bigEndian, crcBytes, List.foldl_cons, List.foldl_nil, h255,
    Nat.and_pow_two_sub_one_eq_mod, Nat.shiftRight_eq_div_pow]
  norm_num at h ⊢
  omega

theorem crcBytes_wf (crc : Nat) : WF (crcBytes crc) := by
  intro b hb
  simp only [crcBytes, List.mem_cons, List.mem_singleton, List.mem_nil_iff, or_false] at hb
  have h255 : (0xFF : Nat) < 2 ^ 8 := by decide
  rcases hb with h | h | h | h <;> rw [h] <;> exact Nat.and_lt_two_pow _ h255

theorem writeCRCToFile_eq (file : List Nat) (crc : Nat) (h : 4 ≤ file.length) :
    writeCRCToFile file crc = (true, file.take (file.length - 4) ++ crcBytes crc) := by
  have h1 : ¬ file.length < 4 := by omega
  have h2 : file.length - 4 - file.length = 0 := by omega
  have h3 : file.length - 4 + 4 = file.length := by omega
  simp [writeCRCToFile, FStream.write, FStream.opened, h1, h2, h3, crcBytes]

theorem writeCRCToFile_short (file : List Nat) (crc : Nat) (h : file.length < 4) :
    writeCRCToFile file crc = (true, file) := by
  simp [writeCRCToFile, FStream.write, FStream.opened, h]

theorem readUInt32_cons4 (a b c d : Nat) (rest : List Nat)
    (ha : a < 256) (hb : b < 256) (hc : c < 256) (hd : d < 256) :
    readUInt32 (a :: b :: c :: d :: rest) 0 = .ok (a * 16777216 + b * 65536 + c * 256 + d) := by
  have hlen : ¬ (0 * 8 + 32 > 8 * (a :: b :: c :: d :: rest).length) := by
    simp only [List.length_cons]; omega
  unfold readUInt32 readBits
  rw [if_neg hlen]
  congr 1
  have hbits : ∀ i, i < 32 → bitAt (a :: b :: c :: d :: rest) (0 * 8 + i)
      = ((a * 16777216 + b * 65536 + c * 256 + d).testBit (32 - 1 - i)).toNat := by
    intro i hi
    rw [Nat.toNat_testBit]
    unfold bitAt
    rw [Nat.shiftRight_eq_div_pow]
    interval_cases i <;> norm_num [List.getD_eq_getElem?_getD] <;> omega
  rw [foldl_bits _ _ _ 32 hbits 32 (Nat.le_refl 32)]
  norm_num
  omega

theorem writeBits_total (f : FStream) (v o w : Nat) : ∃ g, writeBits f v o w = .ok g := by
  rcases writeBits_cases f v o w with h | h | ⟨_, _, _, h⟩ <;> exact ⟨_, h⟩

/-- The run of `main` once the three writes of the patch are known. -/
theorem main_of_patch (rd : BitReader) (src : List Nat) (m s ms : Nat) (f1 f2 f3 : FStream)
    (h1 : writeBits (FStream.opened src) m FINISH_TIME_BASE 7 = .ok f1)
    (h2 : writeBits f1 s (FINISH_TIME_BASE + 7) 7 = .ok f2)
    (h3 : writeBits f2 ms (FINISH_TIME_BASE + 14) 10 = .ok f3) :
    main rd src m s ms =
      match rd.readUInt32 src 0 with
      | .error _ => (.readerFailure, ⟨src, none⟩)
      | .ok magic =>
        if magic ≠ RKGD_MAGIC then (.notValidRkg, ⟨src, none⟩)
        else
          match finishTimeString rd src with
          | .error _ => (.readerFailure, ⟨src, none⟩)
          | .ok _ =>
            match crc32 f3 with
            | none => (.hangs, ⟨src, some f3.bytes⟩)
            | some (.error _) => (.crcError, ⟨src, some f3.bytes⟩)
            | some (.ok crc) => (.success, ⟨src, some (writeCRCToFile f3.bytes crc).2⟩) := by
  unfold main
  cases hm : rd.readUInt32 src 0 with
  | error e => simp [hm]
  | ok magic =>
    by_cases hmag : magic = RKGD_MAGIC
    · cases hs : finishTimeString rd src with
      | error e => simp [hm, hmag, hs]
      | ok t =>
        simp only [hm, hmag, hs, copyFile, Option.getD_some, h1, h2, h3, bind, Except.bind]
        cases hc : crc32 f3 with
        | none => simp
        | some r =>
          cases r with
          | error e => simp
          | ok crc => simp [writeCRCToFile]
    · simp [hm, hmag]

theorem writeBits_good (f g : FStream) (v o w : Nat) (hgood : f.failed = false)
    (hw : w ≠ 0) (h : o + w ≤ 8 * f.bytes.length) (hg : writeBits f v o w = .ok g) :
    g.failed = false := by
  rw [writeBits_inRange f v o w hgood hw h] at hg
  injection hg with hg
  rw [← hg]

/-- What the three writes of `main` leave untouched. -/
theorem patch_frame (src : List Nat) (m s ms : Nat) (f1 f2 f3 : FStream)
    (h1 : writeBits (FStream.opened src) m 32 7 = .ok f1)
    (h2 : writeBits f1 s 39 7 = .ok f2)
    (h3 : writeBits f2 ms 46 10 = .ok f3) :
    f3.bytes.length = src.length ∧
    (WF src → WF f3.bytes) ∧
    ∀ i, (i < 4 ∨ 6 < i) → f3.bytes.getD i 0 = src.getD i 0 := by
  have l1 := writeBits_length _ _ _ _ _ h1
  have l2 := writeBits_length _ _ _ _ _ h2
  have l3 := writeBits_length _ _ _ _ _ h3
  refine ⟨by rw [l3, l2, l1]; rfl, fun hwf => ?_, fun i hi => ?_⟩
  · exact writeBits_wf _ _ _ _ _ h3 (writeBits_wf _ _ _ _ _ h2 (writeBits_wf _ _ _ _ _ h1 hwf))
  · rw [getD_writeBits_outside _ _ _ _ _ h3 i (by omega),
      getD_writeBits_outside _ _ _ _ _ h2 i (by omega),
      getD_writeBits_outside _ _ _ _ _ h1 i (by omega)]
    rfl

/-- What the three writes of `main` store when the file holds bytes 4..6. -/
theorem patch_fields (src : List Nat) (m s ms : Nat) (f1 f2 f3 : FStream)
    (hlen : 7 ≤ src.length)
    (h1 : writeBits (FStream.opened src) m 32 7 = .ok f1)
    (h2 : writeBits f1 s 39 7 = .ok f2)
    (h3 : writeBits f2 ms 46 10 = .ok f3) :
    f3.failed = false ∧
    readBits f3.bytes 32 7 = .ok (m % 2 ^ 7) ∧
    readBits f3.bytes 39 7 = .ok (s % 2 ^ 7) ∧
    readBits f3.bytes 46 10 = .ok (ms % 2 ^ 10) := by
  have l1 := writeBits_length _ _ _ _ _ h1
  have l2 := writeBits_length _ _ _ _ _ h2
  have l3 := writeBits_length _ _ _ _ _ h3
  have l0 : (FStream.opened src).bytes.length = src.length := rfl
  have g0 : (FStream.opened src).failed = false := rfl
  have g1 := writeBits_good _ _ _ _ _ g0 (by decide) (by rw [l0]; omega) h1
  have g2 := writeBits_good _ _ _ _ _ g1 (by decide) (by rw [l1, l0]; omega) h2
  have g3 := writeBits_good _ _ _ _ _ g2 (by decide) (by rw [l2, l1, l0]; omega) h3
  have r1 := readBits_writeBits _ _ _ _ _ g0 (by decide) (by rw [l0]; omega) h1
  have r2 := readBits_writeBits _ _ _ _ _ g1 (by decide) (by rw [l1, l0]; omega) h2
  have r3 := readBits_writeBits _ _ _ _ _ g2 (by decide) (by rw [l2, l1, l0]; omega) h3
  refine ⟨g3, ?_, ?_, r3⟩
  · rw [← r1]
    apply readBits_congr _ _ _ _ (by rw [l3, l2])
    intro p hp1 hp2
    rw [bitB_writeBits_outside _ _ _ _ _ h3 p (by omega),
      bitB_writeBits_outside _ _ _ _ _ h2 p (by omega)]
  · rw [← r2]
    apply readBits_congr _ _ _ _ (by rw [l3])
    intro p hp1 hp2
    rw [bitB_writeBits_outside _ _ _ _ _ h3 p (by omega)]

theorem getD_take_append (l x : List Nat) (k i : Nat) (hk : k ≤ l.length) (hi : i < k) :
    (l.take k ++ x).getD i 0 = l.getD i 0 := by
  simp only [List.getD_eq_getElem?_getD]
  rw [List.getElem?_append_left (by simp; omega), List.getElem?_take_of_lt hi]

/-- The committed file: the payload of the patched copy followed by the
checksum bytes. -/
theorem commit_facts (file : List Nat) (crc : Nat) (hlen : 4 ≤ file.length) :
    let out := (writeCRCToFile file crc).2
    out = file.take (file.length - 4) ++ crcBytes crc ∧
    out.length = file.length ∧
    out.take (out.length - 4) = file.take (file.length - 4) ∧
    out.drop (out.length - 4) = crcBytes crc ∧
    (∀ i, i < file.length - 4 → out.getD i 0 = file.getD i 0) := by
  intro out
  have ho : out = file.take (file.length - 4) ++ crcBytes crc := by
    show (writeCRCToFile file crc).2 = _
    rw [writeCRCToFile_eq file crc hlen]
  have hl : out.length = file.length := by
    rw [ho]; simp [crcBytes]; omega
  have htl : (file.take (file.length - 4)).length = file.length - 4 := by simp
  refine ⟨ho, hl, ?_, ?_, fun i hi => ?_⟩
  · rw [hl, ho, List.take_append_of_le_length (by rw [htl]), List.take_take]
    simp
  · rw [hl, ho, List.drop_append_of_le_length (by rw [htl])]
    rw [List.drop_eq_nil_of_le (by rw [htl])]
    rfl
  · rw [ho]
    exact getD_take_append _ _ _ _ (by omega) hi

theorem crc32_ok_inv (f : FStream) (crc : Nat) (h : crc32 f = some (.ok crc)) :
    f.failed = false ∧ 4 ≤ f.bytes.length ∧
      crc = crcOfPayload (f.bytes.take (f.bytes.length - 4)) := by
  have hgood : f.failed = false := by
    cases hf : f.failed with
    | false => rfl
    | true => rw [crc32_tooSmall f (Or.inl hf)] at h; simp at h
  have hlen : 4 ≤ f.bytes.length := by
    by_contra hc
    rw [crc32_tooSmall f (Or.inr (by omega))] at h; simp at h
  rw [crc32_eq f hgood hlen] at h
  injection h with h
  injection h with h
  exact ⟨hgood, hlen, h.symm⟩

/-- A successful run of `main`: the magic was accepted, the patched copy was a
good stream of at least four bytes, and the target is that copy with its
checksum stored. -/
theorem main_success_inv (rd : BitReader) (src : List Nat) (m s ms : Nat) (w : World)
    (h : main rd src m s ms = (.success, w)) :
    ∃ f1 f2 f3,
      writeBits (FStream.opened src) m 32 7 = .ok f1 ∧
      writeBits f1 s 39 7 = .ok f2 ∧
      writeBits f2 ms 46 10 = .ok f3 ∧
      f3.failed = false ∧ 4 ≤ f3.bytes.length ∧
      rd.readUInt32 src 0 = .ok RKGD_MAGIC ∧
      w = ⟨src, some (writeCRCToFile f3.bytes
            (crcOfPayload (f3.bytes.take (f3.bytes.length - 4)))).2⟩ := by
  obtain ⟨f1, h1⟩ := writeBits_total (FStream.opened src) m 32 7
  obtain ⟨f2, h2⟩ := writeBits_total f1 s 39 7
  obtain ⟨f3, h3⟩ := writeBits_total f2 ms 46 10
  refine ⟨f1, f2, f3, h1, h2, h3, ?_⟩
  rw [main_of_patch rd src m s ms f1 f2 f3 h1 h2 h3] at h
  cases hm : rd.readUInt32 src 0 with
  | error e => rw [hm] at h; simp at h
  | ok magic =>
    rw [hm] at h
    by_cases hmag : magic = RKGD_MAGIC
    · simp only [hmag, ne_eq, not_true_eq_false, if_false] at h
      cases hs : finishTimeString rd src with
      | error e => rw [hs] at h; simp at h
      | ok t =>
        rw [hs] at h
        cases hc : crc32 f3 with
        | none => rw [hc] at h; simp at h
        | some r =>
          cases r with
          | error e => rw [hc] at h; simp at h
          | ok crc =>
            rw [hc] at h
            obtain ⟨hgood, hlen, hcrc⟩ := crc32_ok_inv f3 crc hc
            simp only [Prod.mk.injEq, true_and] at h
            exact ⟨hgood, hlen, by rw [hmag], by rw [← h, hcrc]⟩
    · simp [hmag] at h

/-- A run of `main` on a file of at least seven bytes whose magic and snapshot
reads succeed ends in success. -/
theorem main_success_of (rd : BitReader) (src : List Nat) (m s ms : Nat) (t : String)
    (hmagic : rd.readUInt32 src 0 = .ok RKGD_MAGIC)
    (hsnap : finishTimeString rd src = .ok t) (hlen : 7 ≤ src.length) :
    ∃ f1 f2 f3,
      writeBits (FStream.opened src) m 32 7 = .ok f1 ∧
      writeBits f1 s 39 7 = .ok f2 ∧
      writeBits f2 ms 46 10 = .ok f3 ∧
      main rd src m s ms = (.success, ⟨src, some (writeCRCToFile f3.bytes
            (crcOfPayload (f3.bytes.take (f3.bytes.length - 4)))).2⟩) := by
  obtain ⟨f1, h1⟩ := writeBits_total (FStream.opened src) m 32 7
  obtain ⟨f2, h2⟩ := writeBits_total f1 s 39 7
  obtain ⟨f3, h3⟩ := writeBits_total f2 ms 46 10
  refine ⟨f1, f2, f3, h1, h2, h3, ?_⟩
  obtain ⟨hgood, _, _, _⟩ := patch_fields src m s ms f1 f2 f3 hlen h1 h2 h3
  obtain ⟨hl, _, _⟩ := patch_frame src m s ms f1 f2 f3 h1 h2 h3
  rw [main_of_patch rd src m s ms f1 f2 f3 h1 h2 h3, hmagic, hsnap,
    crc32_eq f3 hgood (by omega)]
  simp

/-- A run of `main` never leaves a committed copy of a file under seven bytes. -/
theorem main_short_not_success (rd : BitReader) (src : List Nat) (m s ms : Nat) (w : World)
    (hlen : src.length < 7) : main rd src m s ms ≠ (.success, w) := by
  intro h
  obtain ⟨f1, f2, f3, h1, h2, h3, hgood, _, _, _⟩ := main_success_inv rd src m s ms w h
  have l1 := writeBits_length _ _ _ _ _ h1
  have l2 := writeBits_length _ _ _ _ _ h2
  have l0 : (FStream.opened src).bytes.length = src.length := rfl
  -- the third write is out of range, so the stream it leaves has failed
  have hbad : f3.failed = true := by
    cases hf2 : f2.failed with
    | true => rw [writeBits_failed f2 ms 46 10 hf2] at h3; injection h3 with h3; rw [← h3, hf2]
    | false =>
      rw [writeBits_outOfRange f2 ms 46 10 hf2 (by decide) (by rw [l2, l1, l0]; omega)] at h3
      injection h3 with h3; rw [← h3]
  rw [hbad] at hgood
  exact Bool.noConfusion hgood

/-- The reader's `readUInt32` at offset 0 is the big-endian value of the first
four bytes. -/
theorem readUInt32_eq_bigEndian (src : List Nat) (hwf : WF src) (hlen : 4 ≤ src.length) :
    readUInt32 src 0 = .ok (bigEndian (src.take 4)) := by
  match src, hwf, hlen with
  | a :: b :: c :: d :: rest, hwf, _ =>
    rw [readUInt32_cons4 a b c d rest (hwf a (by simp)) (hwf b (by simp)) (hwf c (by simp))
      (hwf d (by simp))]
    congr 1
    simp only [bigEndian, List.take_succ_cons, List.take_zero, List.foldl_cons, List.foldl_nil]
    omega

theorem bigEndian_take4_eq_magic (src : List Nat) (hwf : WF src) (hlen : 4 ≤ src.length) :
    bigEndian (src.take 4) = 0x524B4744 ↔ src.take 4 = [0x52, 0x4B, 0x47, 0x44] := by
  match src, hwf, hlen with
  | a :: b :: c :: d :: rest, hwf, _ =>
    have ha := hwf a (by simp)
    have hb := hwf b (by simp)
    have hc := hwf c (by simp)
    have hd := hwf d (by simp)
    simp only [bigEndian, List.take_succ_cons, List.take_zero, List.foldl_cons, List.foldl_nil,
      List.cons.injEq, and_true]
    constructor
    · intro h; omega
    · rintro ⟨rfl, rfl, rfl, rfl⟩; rfl

/-- A run of `main` whose magic read yields a value other than `RKGD_MAGIC`
returns at once: no copy is made and the source is as it was. -/
theorem main_rejects (rd : BitReader) (src : List Nat) (m s ms v : Nat)
    (hm : rd.readUInt32 src 0 = .ok v) (hne : v ≠ RKGD_MAGIC) :
    main rd src m s ms = (.notValidRkg, ⟨src, none⟩) := by
  unfold main
  simp [hm, hne]

/-- A run of `main` whose magic read yields `RKGD_MAGIC` does not end with the
"not a valid RKG" message. -/
theorem main_accepts (rd : BitReader) (src : List Nat) (m s ms : Nat)
    (hm : rd.readUInt32 src 0 = .ok RKGD_MAGIC) :
    (main rd src m s ms).1 ≠ .notValidRkg := by
  obtain ⟨f1, h1⟩ := writeBits_total (FStream.opened src) m 32 7
  obtain ⟨f2, h2⟩ := writeBits_total f1 s 39 7
  obtain ⟨f3, h3⟩ := writeBits_total f2 ms 46 10
  rw [main_of_patch rd src m s ms f1 f2 f3 h1 h2 h3, hm]
  simp only [ne_eq, not_true_eq_false, if_false]
  cases finishTimeString rd src with
  | error e => simp
  | ok t =>
    cases crc32 f3 with
    | none => simp
    | some r => cases r <;> simp

/-! ## C1: non-disturbance of `writeBits` -/

/-- C1. For every stream, every bit range of width 1..64 that lies inside the
stream and every value, `writeBits` returns, the stream keeps its failure state,
the file keeps its length, every bit at a position outside
`[bitOffset, bitOffset+bitWidth)` keeps its value, and every byte that holds no
bit of the range is unchanged. -/
theorem writeBits_non_disturbance (f : FStream) (value bitOffset bitWidth : Nat)
    (hw1 : 1 ≤ bitWidth) (_hw64 : bitWidth ≤ 64)
    (hin : bitOffset + bitWidth ≤ 8 * f.bytes.length) :
    ∃ g, writeBits f value bitOffset bitWidth = .ok g ∧
      g.failed = f.failed ∧
      g.bytes.length = f.bytes.length ∧
      (∀ p, ¬ (bitOffset ≤ p ∧ p < bitOffset + bitWidth) →
        bitAt g.bytes p = bitAt f.bytes p) ∧
      (∀ i, (i < bitOffset / 8 ∨ (bitOffset + bitWidth - 1) / 8 < i) →
        g.bytes.getD i 0 = f.bytes.getD i 0) := by
  obtain ⟨g, hg⟩ := writeBits_total f value bitOffset bitWidth
  refine ⟨g, hg, ?_, writeBits_length f g _ _ _ hg, fun p hp => ?_, fun i hi => ?_⟩
  · cases hf : f.failed with
    | true =>
      rw [writeBits_failed f _ _ _ hf] at hg
      injection hg with hg
      rw [← hg, hf]
    | false => exact writeBits_good f g _ _ _ hf (by omega) hin hg
  · exact (bitAt_eq_iff _ _ p p).mpr (bitB_writeBits_outside f g _ _ _ hg p hp)
  · exact getD_writeBits_outside f g _ _ _ hg i hi

/-- C1 at a concrete input: writing the 7-bit value 30 at bit 39 of
`scenarioSource`, a range that straddles bytes 4 and 5. -/
theorem writeBits_non_disturbance_witness :
    ∃ g, writeBits (FStream.opened scenarioSource) 30 39 7 = .ok g ∧
      g.failed = (FStream.opened scenarioSource).failed ∧
      g.bytes.length = (FStream.opened scenarioSource).bytes.length ∧
      (∀ p, ¬ (39 ≤ p ∧ p < 39 + 7) →
        bitAt g.bytes p = bitAt (FStream.opened scenarioSource).bytes p) ∧
      (∀ i, (i < 39 / 8 ∨ (39 + 7 - 1) / 8 < i) →
        g.bytes.getD i 0 = (FStream.opened scenarioSource).bytes.getD i 0) :=
  writeBits_non_disturbance (FStream.opened scenarioSource) 30 39 7
    (by decide) (by decide) (by decide)

/-! ## C2: round trip of `writeBits` and `readBits` -/

/-- C2. For every good stream, every bit range of width 1..64 (in particular
1..16) inside the stream and every value below `2^bitWidth`, `writeBits`
followed by `readBits` at the same offset and width returns exactly the value. -/
theorem writeBits_readBits_roundtrip (f : FStream) (value bitOffset bitWidth : Nat)
    (hgood : f.failed = false) (hw1 : 1 ≤ bitWidth) (_hw64 : bitWidth ≤ 64)
    (hin : bitOffset + bitWidth ≤ 8 * f.bytes.length) (hval : value < 2 ^ bitWidth) :
    ∃ g, writeBits f value bitOffset bitWidth = .ok g ∧
      readBits g.bytes bitOffset bitWidth = .ok value := by
  obtain ⟨g, hg⟩ := writeBits_total f value bitOffset bitWidth
  refine ⟨g, hg, ?_⟩
  rw [readBits_writeBits f g value bitOffset bitWidth hgood (by omega) hin hg,
    Nat.mod_eq_of_lt hval]

/-- C2 at a concrete input: the 10-bit value 999 written at bit 46. -/
theorem writeBits_readBits_roundtrip_witness :
    ∃ g, writeBits (FStream.opened scenarioSource) 999 46 10 = .ok g ∧
      readBits g.bytes 46 10 = .ok 999 :=
  writeBits_readBits_roundtrip (FStream.opened scenarioSource) 999 46 10
    rfl (by decide) (by decide) (by decide) (by decide)

/-! ## C3: `crc32` is the standard CRC-32 of the payload -/

/-- C3. For every good stream of well-formed bytes and length `n ≥ 4`, `crc32`
terminates and returns the standard reflected CRC-32 (bit by bit, least
significant bit first) of `bytes[0 .. n-4)`; and on "123456789" followed by any
four bytes it returns `0xCBF43926`. -/
theorem crc32_is_reference (f : FStream) (hgood : f.failed = false)
    (hlen : 4 ≤ f.bytes.length) (hwf : WF f.bytes) :
    crc32 f = some (.ok (crc32Reference (f.bytes.take (f.bytes.length - 4)))) ∧
    ∀ a b c d : Nat,
      crc32 (FStream.opened (checkInput ++ [a, b, c, d])) = some (.ok 0xCBF43926) := by
  constructor
  · rw [crc32_eq f hgood hlen, crcOfPayload_eq_reference _ (wf_take _ hwf)]
  · intro a b c d
    rw [crc32_eq _ rfl (by simp [FStream.opened, checkInput])]
    have htake : ((FStream.opened (checkInput ++ [a, b, c, d])).bytes.take
        ((FStream.opened (checkInput ++ [a, b, c, d])).bytes.length - 4)) = checkInput := by
      simp [FStream.opened, checkInput]
    rw [htake]
    rfl

/-- C3 at a concrete input: the check input followed by four zero bytes. -/
theorem crc32_is_reference_witness :
    crc32 (FStream.opened (checkInput ++ [0, 0, 0, 0]))
        = some (.ok (crc32Reference ((FStream.opened (checkInput ++ [0, 0, 0, 0])).bytes.take
            ((FStream.opened (checkInput ++ [0, 0, 0, 0])).bytes.length - 4)))) ∧
    ∀ a b c d : Nat,
      crc32 (FStream.opened (checkInput ++ [a, b, c, d])) = some (.ok 0xCBF43926) :=
  crc32_is_reference (FStream.opened (checkInput ++ [0, 0, 0, 0])) rfl (by decide) (by decide)

/-! ## C4: the committed copy carries its own checksum -/

/-- C4. For every well-formed source and all new field values: whenever `main`
ends in success, the source is unchanged and the copy it committed has at least
four bytes, its last four bytes read big-endian equal the standard CRC-32 of its
first `length - 4` bytes, and `crc32` recomputed on it returns that number; and
`main` does end in success on every source of at least seven bytes whose magic
and snapshot reads succeed. -/
theorem main_checksum_consistent (rd : BitReader) (src : List Nat) (m s ms : Nat)
    (hwf : WF src) :
    (∀ w, main rd src m s ms = (.success, w) →
      ∃ out, w = ⟨src, some out⟩ ∧ 4 ≤ out.length ∧
        bigEndian (out.drop (out.length - 4))
          = crc32Reference (out.take (out.length - 4)) ∧
        crc32 (FStream.opened out)
          = some (.ok (bigEndian (out.drop (out.length - 4))))) ∧
    (rd.readUInt32 src 0 = .ok RKGD_MAGIC → (∃ t, finishTimeString rd src = .ok t) →
      7 ≤ src.length → ∃ w, main rd src m s ms = (.success, w)) := by
  constructor
  · intro w h
    obtain ⟨f1, f2, f3, h1, h2, h3, _, hlen, _, hw⟩ := main_success_inv rd src m s ms w h
    obtain ⟨_, hwf3, _⟩ := patch_frame src m s ms f1 f2 f3 h1 h2 h3
    obtain ⟨_, hol, htake, hdrop, _⟩ :=
      commit_facts f3.bytes (crcOfPayload (f3.bytes.take (f3.bytes.length - 4))) hlen
    refine ⟨_, hw, by rw [hol]; exact hlen, ?_, ?_⟩
    · rw [hdrop, htake, bigEndian_crcBytes _ (crcOfPayload_lt _),
        crcOfPayload_eq_reference _ (wf_take _ (hwf3 hwf))]
    · have hop : ∀ l, (FStream.opened l).bytes = l := fun _ => rfl
      rw [crc32_eq _ rfl (by rw [hop, hol]; exact hlen), hop, hdrop, htake,
        bigEndian_crcBytes _ (crcOfPayload_lt _)]
  · intro hmagic hsnap hlen
    obtain ⟨t, hsnap⟩ := hsnap
    obtain ⟨_, _, _, _, _, _, h⟩ := main_success_of rd src m s ms t hmagic hsnap hlen
    exact ⟨_, h⟩

/-- C4 at a concrete input: the scenario record edited with (1, 30, 999). -/
theorem main_checksum_consistent_witness :
    main specReader scenarioSource 1 30 999 = (.success, ⟨scenarioSource, some scenarioCommitted⟩) ∧
    bigEndian (scenarioCommitted.drop (scenarioCommitted.length - 4))
      = crc32Reference (scenarioCommitted.take (scenarioCommitted.length - 4)) ∧
    crc32 (FStream.opened scenarioCommitted)
      = some (.ok (bigEndian (scenarioCommitted.drop (scenarioCommitted.length - 4)))) := by
  have hrun : main specReader scenarioSource 1 30 999
      = (.success, ⟨scenarioSource, some scenarioCommitted⟩) := by decide
  obtain ⟨out, hw, _, h1, h2⟩ :=
    (main_checksum_consistent specReader scenarioSource 1 30 999 (by decide)).1 _ hrun
  have hout : out = scenarioCommitted := by
    injection hw with _ ht
    injection ht with ht
    exact ht.symm
  subst hout
  exact ⟨hrun, h1, h2⟩

/-! ## C5: the patched fields read back -/

/-- C5 as stated fails on a record of seven bytes: it passes the magic check and
contains the three fields, yet in the committed copy the checksum occupies
bytes 3..6, so the fields do not decode to the new values (1, 30, 999). -/
theorem main_fields_overwritten_by_checksum :
    readUInt32 shortSource 0 = .ok RKGD_MAGIC ∧
    8 * shortSource.length = 46 + 10 ∧
    main specReader shortSource 1 30 999 = (.success, ⟨shortSource, some shortCommitted⟩) ∧
    readBits shortCommitted 32 7 = .ok 38 ∧
    readBits shortCommitted 39 7 = .ok 24 ∧
    readBits shortCommitted 46 10 = .ok 305 ∧
    ¬ (readBits shortCommitted 32 7 = .ok 1 ∧ readBits shortCommitted 39 7 = .ok 30 ∧
        readBits shortCommitted 46 10 = .ok 999) := by
  decide

/-- C5 amended. For every source of at least eleven bytes (bytes 4..6 lie before
the checksum slot) whose magic and snapshot reads succeed, and all new values
`m < 128`, `s < 128`, `ms < 1024`, `main` ends in success and the copy it
committed decodes at bit 32 width 7, bit 39 width 7 and bit 46 width 10 to
exactly `(m, s, ms)`. -/
theorem main_fields_read_back (rd : BitReader) (src : List Nat) (m s ms : Nat) (t : String)
    (hmagic : rd.readUInt32 src 0 = .ok RKGD_MAGIC)
    (hsnap : finishTimeString rd src = .ok t) (hlen : 11 ≤ src.length)
    (hm : m < 128) (hs : s < 128) (hms : ms < 1024) :
    ∃ out, main rd src m s ms = (.success, ⟨src, some out⟩) ∧
      readBits out 32 7 = .ok m ∧
      readBits out 39 7 = .ok s ∧
      readBits out 46 10 = .ok ms := by
  obtain ⟨f1, f2, f3, h1, h2, h3, h⟩ := main_success_of rd src m s ms t hmagic hsnap (by omega)
  obtain ⟨hl, _, _⟩ := patch_frame src m s ms f1 f2 f3 h1 h2 h3
  obtain ⟨_, r1, r2, r3⟩ := patch_fields src m s ms f1 f2 f3 (by omega) h1 h2 h3
  obtain ⟨_, hol, _, _, hsame⟩ :=
    commit_facts f3.bytes (crcOfPayload (f3.bytes.take (f3.bytes.length - 4))) (by omega)
  have hbits : ∀ p, p < 56 →
      bitB (writeCRCToFile f3.bytes
        (crcOfPayload (f3.bytes.take (f3.bytes.length - 4)))).2 p = bitB f3.bytes p := by
    intro p hp
    unfold bitB
    rw [hsame (p / 8) (by omega)]
  refine ⟨_, h, ?_, ?_, ?_⟩
  · rw [readBits_congr _ f3.bytes 32 7 hol (fun p _ hp => hbits p (by omega)), r1]
    exact congrArg _ (Nat.mod_eq_of_lt hm)
  · rw [readBits_congr _ f3.bytes 39 7 hol (fun p _ hp => hbits p (by omega)), r2]
    exact congrArg _ (Nat.mod_eq_of_lt hs)
  · rw [readBits_congr _ f3.bytes 46 10 hol (fun p _ hp => hbits p (by omega)), r3]
    exact congrArg _ (Nat.mod_eq_of_lt hms)

/-- C5 amended, at the scenario of the spec: a source holding (2, 15, 500) edited
with (1, 30, 999). -/
theorem main_fields_read_back_witness :
    finishTimeString specReader scenarioSource = .ok "02:15.500" ∧
    ∃ out, main specReader scenarioSource 1 30 999 = (.success, ⟨scenarioSource, some out⟩) ∧
      readBits out 32 7 = .ok 1 ∧
      readBits out 39 7 = .ok 30 ∧
      readBits out 46 10 = .ok 999 :=
  ⟨by decide,
   main_fields_read_back specReader scenarioSource 1 30 999 "02:15.500"
    (by decide) (by decide) (by decide) (by decide) (by decide) (by decide)⟩

/-! ## C6: frame of the whole edit -/

/-- C6. For every source and all new field values: whenever `main` ends in
success, the source is unchanged, the committed copy has the length of the
source, and every byte of it at an index outside 4..6 and before the last four
bytes equals the source byte at that index; and `main` does end in success on
every source of at least seven bytes whose magic and snapshot reads succeed. -/
theorem main_frame (rd : BitReader) (src : List Nat) (m s ms : Nat) :
    (∀ w, main rd src m s ms = (.success, w) →
      ∃ out, w = ⟨src, some out⟩ ∧ out.length = src.length ∧
        ∀ i, ¬ (4 ≤ i ∧ i ≤ 6) → i < src.length - 4 → out.getD i 0 = src.getD i 0) ∧
    (rd.readUInt32 src 0 = .ok RKGD_MAGIC → (∃ t, finishTimeString rd src = .ok t) →
      7 ≤ src.length → ∃ w, main rd src m s ms = (.success, w)) := by
  constructor
  · intro w h
    obtain ⟨f1, f2, f3, h1, h2, h3, _, hlen, _, hw⟩ := main_success_inv rd src m s ms w h
    obtain ⟨hl, _, hframe⟩ := patch_frame src m s ms f1 f2 f3 h1 h2 h3
    obtain ⟨_, hol, _, _, hsame⟩ :=
      commit_facts f3.bytes (crcOfPayload (f3.bytes.take (f3.bytes.length - 4))) hlen
    refine ⟨_, hw, by rw [hol, hl], fun i hi hi4 => ?_⟩
    rw [hsame i (by omega), hframe i (by omega)]
  · intro hmagic hsnap hlen
    obtain ⟨t, hsnap⟩ := hsnap
    obtain ⟨_, _, _, _, _, _, h⟩ := main_success_of rd src m s ms t hmagic hsnap hlen
    exact ⟨_, h⟩

/-- C6 at a concrete input: the scenario record edited with (1, 30, 999). -/
theorem main_frame_witness :
    main specReader scenarioSource 1 30 999 = (.success, ⟨scenarioSource, some scenarioCommitted⟩) ∧
    scenarioCommitted.length = scenarioSource.length ∧
    ∀ i, ¬ (4 ≤ i ∧ i ≤ 6) → i < scenarioSource.length - 4 →
      scenarioCommitted.getD i 0 = scenarioSource.getD i 0 := by
  have hrun : main specReader scenarioSource 1 30 999
      = (.success, ⟨scenarioSource, some scenarioCommitted⟩) := by decide
  obtain ⟨out, hw, h1, h2⟩ := (main_frame specReader scenarioSource 1 30 999).1 _ hrun
  have hout : out = scenarioCommitted := by
    injection hw with _ ht
    injection ht with ht
    exact ht.symm
  subst hout
  exact ⟨hrun, h1, h2⟩

/-! ## C7: the magic constant -/

/-- C7 as stated fails: a record whose first four bytes are 0x52 0x47 0x4B 0x44,
big-endian `0x52474B44`, is rejected by the magic check of `main`, and the
scenario record, whose first four bytes are not `0x52474B44`, is accepted. -/
theorem main_rejects_52474B44 :
    bigEndian (swappedMagicSource.take 4) = 0x52474B44 ∧
    readUInt32 swappedMagicSource 0 = .ok 0x52474B44 ∧
    main specReader swappedMagicSource 1 30 999
      = (.notValidRkg, ⟨swappedMagicSource, none⟩) ∧
    bigEndian (scenarioSource.take 4) ≠ 0x52474B44 ∧
    (main specReader scenarioSource 1 30 999).1 = .success := by
  decide

/-- C7 amended. The magic validation of `main` accepts a stream of at least four
bytes if and only if its first four bytes, read as a big-endian unsigned 32-bit
number, equal `0x524B4744 = 1380665156`, that is, the bytes 0x52 0x4B 0x47 0x44,
ASCII "RKGD". -/
theorem main_magic_check (src : List Nat) (m s ms : Nat) (hwf : WF src)
    (hlen : 4 ≤ src.length) :
    ((main specReader src m s ms).1 ≠ .notValidRkg ↔ bigEndian (src.take 4) = 0x524B4744) ∧
    (bigEndian (src.take 4) = 0x524B4744 ↔ src.take 4 = [0x52, 0x4B, 0x47, 0x44]) ∧
    [0x52, 0x4B, 0x47, 0x44] = "RKGD".toList.map Char.toNat := by
  have hread : specReader.readUInt32 src 0 = .ok (bigEndian (src.take 4)) :=
    readUInt32_eq_bigEndian src hwf hlen
  refine ⟨⟨fun h => ?_, fun h => ?_⟩, bigEndian_take4_eq_magic src hwf hlen, by decide⟩
  · by_contra hne
    rw [main_rejects specReader src m s ms _ hread hne] at h
    exact h rfl
  · rw [h] at hread
    exact main_accepts specReader src m s ms hread

/-- C7 amended, at the scenario record. -/
theorem main_magic_check_witness :
    ((main specReader scenarioSource 1 30 999).1 ≠ .notValidRkg
      ↔ bigEndian (scenarioSource.take 4) = 0x524B4744) ∧
    (bigEndian (scenarioSource.take 4) = 0x524B4744
      ↔ scenarioSource.take 4 = [0x52, 0x4B, 0x47, 0x44]) ∧
    [0x52, 0x4B, 0x47, 0x44] = "RKGD".toList.map Char.toNat :=
  main_magic_check scenarioSource 1 30 999 (by decide) (by decide)

/-! ## C8: rejection without mutation -/

/-- C8. For every source of at least four bytes whose first four bytes, read
big-endian, differ from `RKGD_MAGIC`, `main` ends with the "not a valid RKG"
failure before any copy or write: no target exists and the source is
unchanged. -/
theorem main_magic_rejection (src : List Nat) (m s ms : Nat) (hwf : WF src)
    (hlen : 4 ≤ src.length) (hne : bigEndian (src.take 4) ≠ RKGD_MAGIC) :
    main specReader src m s ms = (.notValidRkg, { source := src, target := none }) :=
  main_rejects specReader src m s ms _ (readUInt32_eq_bigEndian src hwf hlen) hne

/-- C8 at a concrete input: a record that starts 0x52 0x47 0x4B 0x44. -/
theorem main_magic_rejection_witness :
    main specReader swappedMagicSource 1 30 999
      = (.notValidRkg, { source := swappedMagicSource, target := none }) :=
  main_magic_rejection swappedMagicSource 1 30 999 (by decide) (by decide) (by decide)

/-! ## C9: "File too small" exactly when there is no checksum slot -/

/-- C9. On a good stream `crc32` raises the "File too small" error if and only
if the stream is under four bytes, and on every stream of at least four bytes,
the empty payload of a 4-byte stream included, it terminates with a value. -/
theorem crc32_tooSmall_iff (f : FStream) (hgood : f.failed = false) :
    (crc32 f = some (.error .tooSmall) ↔ f.bytes.length < 4) ∧
    (4 ≤ f.bytes.length → ∃ v, crc32 f = some (.ok v)) := by
  constructor
  · constructor
    · intro h
      by_contra hc
      rw [crc32_eq f hgood (by omega)] at h
      simp at h
    · intro h
      exact crc32_tooSmall f (Or.inr h)
  · intro h
    exact ⟨_, crc32_eq f hgood h⟩

/-- C9 at the 3-byte stream of the spec, and at a 4-byte stream. -/
theorem crc32_tooSmall_iff_witness :
    crc32 (FStream.opened [0x52, 0x4B, 0x47]) = some (.error .tooSmall) ∧
    ∃ v, crc32 (FStream.opened [0x52, 0x4B, 0x47, 0x44]) = some (.ok v) :=
  ⟨(crc32_tooSmall_iff (FStream.opened [0x52, 0x4B, 0x47]) rfl).1.2 (by decide),
   (crc32_tooSmall_iff (FStream.opened [0x52, 0x4B, 0x47, 0x44]) rfl).2 (by decide)⟩

/-! ## C10: a write past the end of the stream -/

/-- C10 as stated fails: writing one bit at bit 8 of a 1-byte stream is out of
range, yet `writeBits` returns normally; no failure reaches the caller, the byte
is unchanged and only the stream's failure flag is raised. -/
theorem writeBits_outOfRange_returns_normally :
    1 ≤ 1 ∧ 8 + 1 > 8 * (FStream.opened [0xAB]).bytes.length ∧
    writeBits (FStream.opened [0xAB]) 1 8 1 = .ok { bytes := [0xAB], failed := true } ∧
    writeBits (FStream.opened [0xAB]) 1 8 1 ≠ .error .outOfRange := by
  decide

/-- C10 amended. For every good stream and every bit range with `bitWidth ≥ 1`
and `bitOffset + bitWidth` greater than 8 times the stream's length, `writeBits`
completes normally without raising a failure: the file is left byte for byte as
it was and the stream is left in its failed state. -/
theorem writeBits_outOfRange_silent (f : FStream) (value bitOffset bitWidth : Nat)
    (hgood : f.failed = false) (hw : 1 ≤ bitWidth)
    (hout : bitOffset + bitWidth > 8 * f.bytes.length) :
    writeBits f value bitOffset bitWidth = .ok { bytes := f.bytes, failed := true } :=
  writeBits_outOfRange f value bitOffset bitWidth hgood (by omega) hout

/-- C10 amended, at a concrete input: the third write of `main` on a 6-byte
file. -/
theorem writeBits_outOfRange_silent_witness :
    writeBits (FStream.opened [0x52, 0x4B, 0x47, 0x44, 0x04, 0x3D]) 999 46 10
      = .ok { bytes := (FStream.opened [0x52, 0x4B, 0x47, 0x44, 0x04, 0x3D]).bytes,
              failed := true } :=
  writeBits_outOfRange_silent (FStream.opened [0x52, 0x4B, 0x47, 0x44, 0x04, 0x3D]) 999 46 10
    rfl (by decide) (by decide)

/-! ## Lemmas for C11..C20 -/

theorem insertBit_mod (v n o : Nat) (buf : List Nat) (i : Nat) (hi : i < n) :
    insertBit (v % 2 ^ n) n o buf i = insertBit v n o buf i := by
  have hbit : ((v % 2 ^ n) >>> (n - 1 - i)) &&& 1 = (v >>> (n - 1 - i)) &&& 1 := by
    rw [Nat.and_one_is_mod, Nat.and_one_is_mod, Nat.shiftRight_eq_div_pow,
      Nat.shiftRight_eq_div_pow, ← Nat.toNat_testBit, ← Nat.toNat_testBit,
      Nat.testBit_mod_two_pow]
    have : n - 1 - i < n := by omega
    simp [this]
  unfold insertBit
  simp only [hbit]

theorem foldl_insertBit_mod (v n o : Nat) (buf : List Nat) :
    ∀ k, k ≤ n →
      (List.range k).foldl (insertBit (v % 2 ^ n) n o) buf
        = (List.range k).foldl (insertBit v n o) buf := by
  intro k
  induction k with
  | zero => intro _; rfl
  | succ k ih =>
    intro hk
    rw [List.range_succ, List.foldl_append, List.foldl_append, ih (by omega)]
    simp only [List.foldl_cons, List.foldl_nil]
    exact insertBit_mod v n o _ k (by omega)

theorem insertBits_mod (v n o : Nat) (buf : List Nat) :
    insertBits (v % 2 ^ n) n o buf = insertBits v n o buf :=
  foldl_insertBit_mod v n o buf n (Nat.le_refl n)

theorem writeBits_mod (f : FStream) (v o w : Nat) :
    writeBits f (v % 2 ^ w) o w = writeBits f v o w := by
  unfold writeBits
  simp only [insertBits_mod]

/-- The bits a good in-range write stores, one by one. -/
theorem bitAt_writeBits_inside (f g : FStream) (v o w : Nat) (hgood : f.failed = false)
    (hw : w ≠ 0) (hin : o + w ≤ 8 * f.bytes.length) (hg : writeBits f v o w = .ok g)
    (i : Nat) (hi : i < w) :
    bitAt g.bytes (o + i) = v / 2 ^ (w - 1 - i) % 2 := by
  rw [bitAt_eq_toNat, bitB_writeBits f g v o w hgood hw hin hg, if_pos (by omega),
    Nat.toNat_testBit]
  congr 3
  omega

/-! ## C11: truncation on write -/

/-- C11. For every good stream, every in-range bit range of width 1..64 and every
64-bit value, `writeBits` with the value and `writeBits` with the value reduced
modulo `2^bitWidth` give the same result; the call returns without an error
whether or not the value fits; and the bits it stores at
`bitOffset .. bitOffset+bitWidth-1`, first bit most significant, are those of
`value mod 2^bitWidth`. -/
theorem writeBits_truncates (f : FStream) (value bitOffset bitWidth : Nat)
    (hgood : f.failed = false) (hw1 : 1 ≤ bitWidth) (_hw64 : bitWidth ≤ 64)
    (hin : bitOffset + bitWidth ≤ 8 * f.bytes.length) (_hval : value < 2 ^ 64) :
    writeBits f value bitOffset bitWidth = writeBits f (value % 2 ^ bitWidth) bitOffset bitWidth ∧
    ∃ g, writeBits f value bitOffset bitWidth = .ok g ∧
      (∀ i, i < bitWidth →
        bitAt g.bytes (bitOffset + i) = (value % 2 ^ bitWidth) / 2 ^ (bitWidth - 1 - i) % 2) ∧
      (List.range bitWidth).foldl (fun acc i => 2 * acc + bitAt g.bytes (bitOffset + i)) 0
        = value % 2 ^ bitWidth := by
  refine ⟨(writeBits_mod f value bitOffset bitWidth).symm, ?_⟩
  obtain ⟨g, hg⟩ := writeBits_total f value bitOffset bitWidth
  have hg2 : writeBits f (value % 2 ^ bitWidth) bitOffset bitWidth = .ok g := by
    rw [writeBits_mod]; exact hg
  refine ⟨g, hg, fun i hi => ?_, ?_⟩
  · exact bitAt_writeBits_inside f g _ _ _ hgood (by omega) hin hg2 i hi
  · have hbits : ∀ i, i < bitWidth →
        bitAt g.bytes (bitOffset + i) = (value.testBit (bitWidth - 1 - i)).toNat := by
      intro i hi
      rw [bitAt_writeBits_inside f g _ _ _ hgood (by omega) hin hg i hi, Nat.toNat_testBit]
    rw [foldl_bits g.bytes value bitOffset bitWidth hbits bitWidth (Nat.le_refl _)]
    simp

/-- C11 at a concrete input: the value 0xFFFF written into the seven bits at
bit 39 stores 0x7F. -/
theorem writeBits_truncates_witness :
    writeBits (FStream.opened scenarioSource) 0xFFFF 39 7
      = writeBits (FStream.opened scenarioSource) (0xFFFF % 2 ^ 7) 39 7 ∧
    ∃ g, writeBits (FStream.opened scenarioSource) 0xFFFF 39 7 = .ok g ∧
      (∀ i, i < 7 → bitAt g.bytes (39 + i) = (0xFFFF % 2 ^ 7) / 2 ^ (7 - 1 - i) % 2) ∧
      (List.range 7).foldl (fun acc i => 2 * acc + bitAt g.bytes (39 + i)) 0 = 0xFFFF % 2 ^ 7 :=
  writeBits_truncates (FStream.opened scenarioSource) 0xFFFF 39 7
    rfl (by decide) (by decide) (by decide) (by decide)

/-! ## C12: `writeCRCToFile` stores the checksum big-endian in the last four bytes -/

/-- C12. For every file of length `n ≥ 4` and every 32-bit `crc`,
`writeCRCToFile` returns `true`, the file keeps its length, bytes `n-4 .. n-1`
are `(crc >> 24) & 0xFF`, `(crc >> 16) & 0xFF`, `(crc >> 8) & 0xFF`,
`crc & 0xFF` in that order, the last four bytes read big-endian give `crc`,
and bytes `0 .. n-5` are unchanged. -/
theorem writeCRCToFile_stores_big_endian (file : List Nat) (crc : Nat)
    (hlen : 4 ≤ file.length) (hcrc : crc < 2 ^ 32) :
    (writeCRCToFile file crc).1 = true ∧
    (writeCRCToFile file crc).2.length = file.length ∧
    (writeCRCToFile file crc).2.drop (file.length - 4)
      = [(crc >>> 24) &&& 0xFF, (crc >>> 16) &&& 0xFF, (crc >>> 8) &&& 0xFF, crc &&& 0xFF] ∧
    bigEndian ((writeCRCToFile file crc).2.drop (file.length - 4)) = crc ∧
    (writeCRCToFile file crc).2.take (file.length - 4) = file.take (file.length - 4) ∧
    ∀ i, i < file.length - 4 → (writeCRCToFile file crc).2.getD i 0 = file.getD i 0 := by
  obtain ⟨_, hol, htake, hdrop, hsame⟩ := commit_facts file crc hlen
  rw [hol] at htake hdrop
  refine ⟨by rw [writeCRCToFile_eq file crc hlen], hol, hdrop, ?_, htake, hsame⟩
  rw [hdrop, bigEndian_crcBytes crc hcrc]

/-- C12 at a concrete input: 0xFE85E3A8 stored into the scenario record. -/
theorem writeCRCToFile_stores_big_endian_witness :
    (writeCRCToFile scenarioSource 0xFE85E3A8).1 = true ∧
    (writeCRCToFile scenarioSource 0xFE85E3A8).2.length = scenarioSource.length ∧
    (writeCRCToFile scenarioSource 0xFE85E3A8).2.drop (scenarioSource.length - 4)
      = [(0xFE85E3A8 >>> 24) &&& 0xFF, (0xFE85E3A8 >>> 16) &&& 0xFF,
         (0xFE85E3A8 >>> 8) &&& 0xFF, 0xFE85E3A8 &&& 0xFF] ∧
    bigEndian ((writeCRCToFile scenarioSource 0xFE85E3A8).2.drop (scenarioSource.length - 4))
      = 0xFE85E3A8 ∧
    (writeCRCToFile scenarioSource 0xFE85E3A8).2.take (scenarioSource.length - 4)
      = scenarioSource.take (scenarioSource.length - 4) ∧
    ∀ i, i < scenarioSource.length - 4 →
      (writeCRCToFile scenarioSource 0xFE85E3A8).2.getD i 0 = scenarioSource.getD i 0 :=
  writeCRCToFile_stores_big_endian scenarioSource 0xFE85E3A8 (by decide) (by decide)

/-! ## C13: a zero-width write -/

/-- C13. For every stream, every value and every bit offset, in range or not,
`writeBits` with `bitWidth = 0` returns without an error and leaves the stream,
its bytes and its state, exactly as it was. -/
theorem writeBits_zero_width (f : FStream) (value bitOffset : Nat) :
    writeBits f value bitOffset 0 = .ok f := by
  simp [writeBits]

/-! ## C14: the derived output path -/

theorem map_range_getD (l : List Char) (k : Nat) (hk : k ≤ l.length) :
    (List.range k).map (fun i => l.getD i ' ') = l.take k := by
  apply List.ext_getElem?
  intro i
  by_cases hi : i < k
  · have hil : i < l.length := by omega
    rw [List.getElem?_map, List.getElem?_range hi, List.getElem?_take_of_lt hi,
      List.getElem?_eq_getElem hil]
    simp [List.getD_eq_getElem?_getD, List.getElem?_eq_getElem hil]
  · rw [List.getElem?_eq_none (by simp; omega), List.getElem?_eq_none (by simp; omega)]

theorem copyFileName_eq (argv1 : List Char) :
    copyFileName argv1 =
      if argv1.length < 4 then none
      else some (argv1.take (argv1.length - 4) ++ "_OUTPUT.rkg".toList) := by
  unfold copyFileName
  rw [map_range_getD argv1 _ (by omega)]

/-- C14 as stated fails: the input path "ghost.bin" has the stem "ghost" and the
extension ".bin", yet the target path is "ghost_OUTPUT.rkg", not
"ghost_OUTPUT.bin": the extension is not kept. -/
theorem copyFileName_drops_extension :
    "ghost.bin".toList = "ghost".toList ++ ".bin".toList ∧
    copyFileName "ghost.bin".toList = some "ghost_OUTPUT.rkg".toList ∧
    copyFileName "ghost.bin".toList
      ≠ some ("ghost".toList ++ "_OUTPUT".toList ++ ".bin".toList) := by
  decide

/-- C14 amended. For every input path whose extension is ".rkg", the target path
is the input path with "_OUTPUT" inserted before the extension, the extension
kept; in general, for a path of at least four characters, the target path is
the path without its last four characters followed by "_OUTPUT.rkg". -/
theorem copyFileName_rkg :
    (∀ stem : List Char,
      copyFileName (stem ++ ".rkg".toList)
        = some (stem ++ "_OUTPUT".toList ++ ".rkg".toList)) ∧
    (∀ argv1 : List Char,
      copyFileName argv1 =
        if argv1.length < 4 then none
        else some (argv1.take (argv1.length - 4) ++ "_OUTPUT.rkg".toList)) := by
  refine ⟨fun stem => ?_, copyFileName_eq⟩
  have hlen : (stem ++ ".rkg".toList).length = stem.length + 4 := by
    rw [List.length_append]; rfl
  rw [copyFileName_eq, if_neg (by omega), hlen, Nat.add_sub_cancel, List.take_left' rfl,
    List.append_assoc]
  rfl

/-! ## C15: the table-driven step is the bitwise step -/

/-- C15. The table of `makeCRCTable` has exactly 256 entries, entry `n` is eight
rounds of `c := (c & 1) ? (0xEDB88320 ^ (c >> 1)) : (c >> 1)` starting from `n`,
and for every 32-bit `crc` and every byte `b` the update
`(crc >> 8) ^ table[(crc ^ b) & 0xFF]` of `crc32` equals eight rounds of the same
step applied to `crc ^ b`. -/
theorem crcTable_step_is_bitwise :
    makeCRCTable.length = 256 ∧
    (∀ n, n < 256 → makeCRCTable.getD n 0 = Nat.iterate crcBitStep 8 n) ∧
    (∀ crc b, crc < 2 ^ 32 → b < 256 →
      (crc >>> 8) ^^^ makeCRCTable.getD ((crc ^^^ b) &&& 0xFF) 0
        = Nat.iterate crcBitStep 8 (crc ^^^ b)) ∧
    (∀ crc b, crc < 2 ^ 32 → b < 256 →
      crcUpdate makeCRCTable crc b = Nat.iterate crcBitStep 8 (crc ^^^ b)) := by
  refine ⟨makeCRCTable_length, fun n hn => ?_, fun crc b _ hb => ?_, fun crc b _ hb => ?_⟩
  · rw [makeCRCTable_getD n hn, crcRounds8_eq_iterate]
  · have h := crcUpdate_eq_byteStep crc b hb
    unfold crcUpdate at h
    rw [Nat.mod_eq_of_lt hb] at h
    exact h
  · exact crcUpdate_eq_byteStep crc b hb

/-- C15 at concrete inputs: entry 1 of the table, and the first update of a
checksum, `crc = 0xFFFFFFFF` with the byte 0x31. -/
theorem crcTable_step_is_bitwise_witness :
    makeCRCTable.getD 1 0 = Nat.iterate crcBitStep 8 1 ∧
    (0xFFFFFFFF >>> 8) ^^^ makeCRCTable.getD ((0xFFFFFFFF ^^^ 0x31) &&& 0xFF) 0
      = Nat.iterate crcBitStep 8 (0xFFFFFFFF ^^^ 0x31) ∧
    crcUpdate makeCRCTable 0xFFFFFFFF 0x31 = Nat.iterate crcBitStep 8 (0xFFFFFFFF ^^^ 0x31) :=
  ⟨crcTable_step_is_bitwise.2.1 1 (by decide),
   crcTable_step_is_bitwise.2.2.1 0xFFFFFFFF 0x31 (by decide) (by decide),
   crcTable_step_is_bitwise.2.2.2 0xFFFFFFFF 0x31 (by decide) (by decide)⟩

/-! ## C16: chunking is not observable -/

/-- C16. For every good stream of length `n ≥ 4`, the chunked loop of `crc32`
terminates and returns the single left-to-right fold of the per-byte update
over `bytes[0 .. n-4)` (then the final xor), and the loop run with any other
positive buffer size returns the same value. -/
theorem crc32_chunking_unobservable (f : FStream) (hgood : f.failed = false)
    (hlen : 4 ≤ f.bytes.length) :
    crc32 f = some (.ok ((f.bytes.take (f.bytes.length - 4)).foldl
                (crcUpdate makeCRCTable) 0xFFFFFFFF ^^^ 0xFFFFFFFF)) ∧
    ∀ bufferSize, 0 < bufferSize → crc32With bufferSize f = crc32 f := by
  refine ⟨crc32_eq f hgood hlen, fun bufferSize hbuf => ?_⟩
  rw [crc32With_eq bufferSize hbuf f hgood hlen, crc32_eq f hgood hlen]

/-- C16 at a concrete input: the scenario record, with buffer sizes 1 and 3. -/
theorem crc32_chunking_unobservable_witness :
    crc32 (FStream.opened scenarioSource) = some (.ok 0xD1DA0CC0) ∧
    crc32With 1 (FStream.opened scenarioSource) = crc32 (FStream.opened scenarioSource) ∧
    crc32With 3 (FStream.opened scenarioSource) = crc32 (FStream.opened scenarioSource) :=
  ⟨(crc32_chunking_unobservable (FStream.opened scenarioSource) rfl (by decide)).1.trans
      (by decide),
   (crc32_chunking_unobservable (FStream.opened scenarioSource) rfl (by decide)).2 1
      (by decide),
   (crc32_chunking_unobservable (FStream.opened scenarioSource) rfl (by decide)).2 3
      (by decide)⟩

/-! ## C17: the checksum does not depend on its own slot -/

/-- C17. Two good streams of the same length `n ≥ 4` that agree on bytes
`0 .. n-5` have the same `crc32`; and computing and storing the checksum a
second time on a stream that already carries its checksum leaves it
unchanged. -/
theorem crc32_ignores_slot (f g : FStream) (hf : f.failed = false) (hg : g.failed = false)
    (hlen : 4 ≤ f.bytes.length) (hsame : g.bytes.length = f.bytes.length)
    (hagree : g.bytes.take (g.bytes.length - 4) = f.bytes.take (f.bytes.length - 4)) :
    crc32 f = crc32 g ∧
    ∀ crc, crc32 f = some (.ok crc) →
      crc32 (FStream.opened (writeCRCToFile f.bytes crc).2) = some (.ok crc) ∧
      (writeCRCToFile (writeCRCToFile f.bytes crc).2 crc).2 = (writeCRCToFile f.bytes crc).2 := by
  constructor
  · rw [crc32_eq f hf hlen, crc32_eq g hg (by omega), hagree]
  · intro crc hcrc
    obtain ⟨_, _, hval⟩ := crc32_ok_inv f crc hcrc
    obtain ⟨hout, hol, htake, _, _⟩ := commit_facts f.bytes crc hlen
    have hop : ∀ l, (FStream.opened l).bytes = l := fun _ => rfl
    constructor
    · rw [crc32_eq _ rfl (by rw [hop, hol]; exact hlen), hop, htake, ← hval]
    · obtain ⟨hout2, _, _, _, _⟩ := commit_facts (writeCRCToFile f.bytes crc).2 crc
        (by rw [hol]; exact hlen)
      rw [hout2, htake, ← hout]

/-- C17 at a concrete input: the scenario record and the same record with its
last four bytes replaced; its checksum is 0xD1DA0CC0. -/
theorem crc32_ignores_slot_witness :
    crc32 (FStream.opened scenarioSource)
      = crc32 (FStream.opened (scenarioSource.take 9 ++ [0xDE, 0xAD, 0xBE, 0xEF])) ∧
    crc32 (FStream.opened
        (writeCRCToFile (FStream.opened scenarioSource).bytes 0xD1DA0CC0).2)
      = some (.ok 0xD1DA0CC0) ∧
    (writeCRCToFile (writeCRCToFile (FStream.opened scenarioSource).bytes 0xD1DA0CC0).2
        0xD1DA0CC0).2
      = (writeCRCToFile (FStream.opened scenarioSource).bytes 0xD1DA0CC0).2 :=
  ⟨(crc32_ignores_slot (FStream.opened scenarioSource)
      (FStream.opened (scenarioSource.take 9 ++ [0xDE, 0xAD, 0xBE, 0xEF]))
      rfl rfl (by decide) (by decide) (by decide)).1,
   (crc32_ignores_slot (FStream.opened scenarioSource)
      (FStream.opened (scenarioSource.take 9 ++ [0xDE, 0xAD, 0xBE, 0xEF]))
      rfl rfl (by decide) (by decide) (by decide)).2 0xD1DA0CC0 (by decide)⟩

/-! ## C18: the three fields tile bytes 4..6 -/

theorem testBit_packedFields (m s ms q : Nat) :
    (packedFields m s ms).testBit q =
      if q < 10 then ms.testBit q
      else if q < 17 then s.testBit (q - 10)
      else (decide (q < 24) && m.testBit (q - 17)) := by
  have hform : packedFields m s ms
      = 2 ^ 10 * (2 ^ 7 * (m % 2 ^ 7) + s % 2 ^ 7) + ms % 2 ^ 10 := by
    unfold packedFields
    norm_num
    ring
  have h1 : ms % 2 ^ 10 < 2 ^ 10 := Nat.mod_lt _ (by decide)
  have h2 : s % 2 ^ 7 < 2 ^ 7 := Nat.mod_lt _ (by decide)
  rw [hform, Nat.testBit_mul_pow_two_add _ h1]
  by_cases hq : q < 10
  · rw [if_pos hq, if_pos hq, Nat.testBit_mod_two_pow]
    simp [hq]
  · rw [if_neg hq, if_neg hq, Nat.testBit_mul_pow_two_add _ h2]
    by_cases hq2 : q < 17
    · have : q - 10 < 7 := by omega
      rw [if_pos this, if_pos hq2, Nat.testBit_mod_two_pow]
      simp [this]
    · have h3 : ¬ q - 10 < 7 := by omega
      have h4 : q - 10 - 7 = q - 17 := by omega
      rw [if_neg h3, if_neg hq2, h4, Nat.testBit_mod_two_pow]
      have h5 : (q - 17 < 7) = (q < 24) := by
        apply propext; constructor <;> intro h <;> omega
      simp [h5]

theorem byte_eq_of_bits (x y : Nat) (hx : x < 256) (hy : y < 256)
    (h : ∀ j, j < 8 → x.testBit j = y.testBit j) : x = y := by
  apply Nat.eq_of_testBit_eq
  intro j
  by_cases hj : j < 8
  · exact h j hj
  · have hp : (256 : Nat) ≤ 2 ^ j :=
      le_trans (by decide : (256 : Nat) ≤ 2 ^ 8) (Nat.pow_le_pow_right (by decide) (by omega))
    rw [Nat.testBit_lt_two_pow (Nat.lt_of_lt_of_le hx hp),
      Nat.testBit_lt_two_pow (Nat.lt_of_lt_of_le hy hp)]

theorem getD_lt_of_wf (l : List Nat) (hwf : WF l) (i : Nat) : l.getD i 0 < 256 := by
  by_cases hi : i < l.length
  · rw [List.getD_eq_getElem _ _ hi]
    exact hwf _ (List.getElem_mem _)
  · rw [List.getD_eq_default _ _ (by omega)]
    decide

theorem testBit_getD_eq_bitB (l : List Nat) (i j : Nat) (hj : j < 8) :
    (l.getD i 0).testBit j = bitB l (8 * i + (7 - j)) := by
  unfold bitB
  have h1 : (8 * i + (7 - j)) / 8 = i := by omega
  have h2 : 7 - (8 * i + (7 - j)) % 8 = j := by omega
  rw [h1, h2]

/-- The 24 bits at positions 32..55 after the three writes of `main`. -/
theorem patch_bits (src : List Nat) (m s ms : Nat) (f1 f2 f3 : FStream)
    (hlen : 7 ≤ src.length)
    (h1 : writeBits (FStream.opened src) m 32 7 = .ok f1)
    (h2 : writeBits f1 s 39 7 = .ok f2)
    (h3 : writeBits f2 ms 46 10 = .ok f3) (p : Nat) (hp1 : 32 ≤ p) (hp2 : p < 56) :
    bitB f3.bytes p = (packedFields m s ms).testBit (55 - p) := by
  have l1 := writeBits_length _ _ _ _ _ h1
  have l2 := writeBits_length _ _ _ _ _ h2
  have l0 : (FStream.opened src).bytes.length = src.length := rfl
  have g0 : (FStream.opened src).failed = false := rfl
  have g1 := writeBits_good _ _ _ _ _ g0 (by decide) (by rw [l0]; omega) h1
  have g2 := writeBits_good _ _ _ _ _ g1 (by decide) (by rw [l1, l0]; omega) h2
  rw [testBit_packedFields,
    bitB_writeBits _ _ _ _ _ g2 (by decide) (by rw [l2, l1, l0]; omega) h3 p]
  by_cases hc : 46 ≤ p
  · rw [if_pos ⟨hc, by omega⟩, if_pos (by omega)]
    congr 1
    omega
  · rw [if_neg (by omega), if_neg (by omega),
      bitB_writeBits _ _ _ _ _ g1 (by decide) (by rw [l1, l0]; omega) h2 p]
    by_cases hb : 39 ≤ p
    · rw [if_pos ⟨hb, by omega⟩, if_pos (by omega)]
      congr 1
      omega
    · rw [if_neg (by omega), if_neg (by omega),
        bitB_writeBits _ _ _ _ _ g0 (by decide) (by rw [l0]; omega) h1 p,
        if_pos ⟨hp1, by omega⟩]
      have : decide (55 - p < 24) = true := by simp; omega
      rw [this, Bool.true_and]
      congr 1
      omega

/-- C18. For every well-formed stream of at least seven bytes and all values
`(m, s, ms)`, after the three `writeBits` calls of `main` (bit 32 width 7, bit 39
width 7, bit 46 width 10) bytes 4, 5, 6 are the big-endian 24-bit encoding of
`(m mod 128) * 2^17 + (s mod 128) * 2^10 + (ms mod 1024)`, whatever they held
before, the length is unchanged and no other byte is changed. -/
theorem patch_tiles_bytes (src : List Nat) (m s ms : Nat) (hlen : 7 ≤ src.length)
    (hwf : WF src) :
    ∃ f1 f2 f3,
      writeBits (FStream.opened src) m FINISH_TIME_BASE 7 = .ok f1 ∧
      writeBits f1 s (FINISH_TIME_BASE + 7) 7 = .ok f2 ∧
      writeBits f2 ms (FINISH_TIME_BASE + 14) 10 = .ok f3 ∧
      f3.bytes.length = src.length ∧
      f3.bytes.getD 4 0 = packedFields m s ms / 65536 ∧
      f3.bytes.getD 5 0 = packedFields m s ms / 256 % 256 ∧
      f3.bytes.getD 6 0 = packedFields m s ms % 256 ∧
      bigEndian [f3.bytes.getD 4 0, f3.bytes.getD 5 0, f3.bytes.getD 6 0]
        = (m % 128) * 2 ^ 17 + (s % 128) * 2 ^ 10 + ms % 1024 ∧
      ∀ i, (i < 4 ∨ 6 < i) → f3.bytes.getD i 0 = src.getD i 0 := by
  obtain ⟨f1, h1⟩ := writeBits_total (FStream.opened src) m 32 7
  obtain ⟨f2, h2⟩ := writeBits_total f1 s 39 7
  obtain ⟨f3, h3⟩ := writeBits_total f2 ms 46 10
  obtain ⟨hl, hwf3, hframe⟩ := patch_frame src m s ms f1 f2 f3 h1 h2 h3
  have hV : packedFields m s ms < 2 ^ 24 := by
    unfold packedFields
    have := Nat.mod_lt m (by decide : 0 < 128)
    have := Nat.mod_lt s (by decide : 0 < 128)
    have := Nat.mod_lt ms (by decide : 0 < 1024)
    norm_num
    omega
  have hbits := patch_bits src m s ms f1 f2 f3 hlen h1 h2 h3
  have b4 : f3.bytes.getD 4 0 = packedFields m s ms / 65536 := by
    apply byte_eq_of_bits _ _ (getD_lt_of_wf _ (hwf3 hwf) 4) (by norm_num at hV; omega)
    intro j hj
    rw [testBit_getD_eq_bitB _ _ _ hj, hbits _ (by omega) (by omega),
      show (65536 : Nat) = 2 ^ 16 from rfl, ← Nat.shiftRight_eq_div_pow, Nat.testBit_shiftRight]
    congr 1
    omega
  have b5 : f3.bytes.getD 5 0 = packedFields m s ms / 256 % 256 := by
    apply byte_eq_of_bits _ _ (getD_lt_of_wf _ (hwf3 hwf) 5) (Nat.mod_lt _ (by decide))
    intro j hj
    rw [testBit_getD_eq_bitB _ _ _ hj, hbits _ (by omega) (by omega),
      show (256 : Nat) = 2 ^ 8 from rfl, Nat.testBit_mod_two_pow,
      ← Nat.shiftRight_eq_div_pow, Nat.testBit_shiftRight]
    simp only [hj, decide_True, Bool.true_and]
    congr 1
    omega
  have b6 : f3.bytes.getD 6 0 = packedFields m s ms % 256 := by
    apply byte_eq_of_bits _ _ (getD_lt_of_wf _ (hwf3 hwf) 6) (Nat.mod_lt _ (by decide))
    intro j hj
    rw [testBit_getD_eq_bitB _ _ _ hj, hbits _ (by omega) (by omega),
      show (256 : Nat) = 2 ^ 8 from rfl, Nat.testBit_mod_two_pow]
    simp only [hj, decide_True, Bool.true_and]
    congr 1
    omega
  refine ⟨f1, f2, f3, h1, h2, h3, hl, b4, b5, b6, ?_, hframe⟩
  rw [b4, b5, b6]
  show bigEndian _ = packedFields m s ms
  simp only [bigEndian, List.foldl_cons, List.foldl_nil]
  norm_num at hV
  omega

/-- C18 at a concrete input: the scenario record patched with (1, 30, 999);
bytes 4..6 become 0x02 0x7B 0xE7. -/
theorem patch_tiles_bytes_witness :
    ∃ f1 f2 f3,
      writeBits (FStream.opened scenarioSource) 1 FINISH_TIME_BASE 7 = .ok f1 ∧
      writeBits f1 30 (FINISH_TIME_BASE + 7) 7 = .ok f2 ∧
      writeBits f2 999 (FINISH_TIME_BASE + 14) 10 = .ok f3 ∧
      f3.bytes.length = scenarioSource.length ∧
      f3.bytes.getD 4 0 = packedFields 1 30 999 / 65536 ∧
      f3.bytes.getD 5 0 = packedFields 1 30 999 / 256 % 256 ∧
      f3.bytes.getD 6 0 = packedFields 1 30 999 % 256 ∧
      bigEndian [f3.bytes.getD 4 0, f3.bytes.getD 5 0, f3.bytes.getD 6 0]
        = (1 % 128) * 2 ^ 17 + (30 % 128) * 2 ^ 10 + 999 % 1024 ∧
      ∀ i, (i < 4 ∨ 6 < i) → f3.bytes.getD i 0 = scenarioSource.getD i 0 :=
  patch_tiles_bytes scenarioSource 1 30 999 (by decide) (by decide)

/-! ## C19: writes to disjoint bit ranges commute -/

theorem bytes_eq_of_bits (a b : List Nat) (hlen : a.length = b.length) (ha : WF a)
    (hb : WF b) (h : ∀ p, bitB a p = bitB b p) : a = b := by
  apply List.ext_getElem hlen
  intro i hia hib
  have e1 : a.getD i 0 = a[i] := List.getD_eq_getElem _ _ hia
  have e2 : b.getD i 0 = b[i] := List.getD_eq_getElem _ _ hib
  rw [← e1, ← e2]
  apply byte_eq_of_bits _ _ (getD_lt_of_wf a ha i) (getD_lt_of_wf b hb i)
  intro j hj
  rw [testBit_getD_eq_bitB _ _ _ hj, testBit_getD_eq_bitB _ _ _ hj, h]

/-- Two good in-range writes in sequence: the bits of the result. -/
theorem bitB_two_writes (f a ab : FStream) (v1 o1 w1 v2 o2 w2 : Nat)
    (hgood : f.failed = false) (hw1 : w1 ≠ 0) (hw2 : w2 ≠ 0)
    (hin1 : o1 + w1 ≤ 8 * f.bytes.length) (hin2 : o2 + w2 ≤ 8 * f.bytes.length)
    (ha : writeBits f v1 o1 w1 = .ok a) (hab : writeBits a v2 o2 w2 = .ok ab) (p : Nat) :
    ab.failed = false ∧ ab.bytes.length = f.bytes.length ∧
    bitB ab.bytes p =
      if o2 ≤ p ∧ p < o2 + w2 then v2.testBit (w2 - 1 - (p - o2))
      else if o1 ≤ p ∧ p < o1 + w1 then v1.testBit (w1 - 1 - (p - o1))
      else bitB f.bytes p := by
  have la := writeBits_length _ _ _ _ _ ha
  have lab := writeBits_length _ _ _ _ _ hab
  have ga := writeBits_good _ _ _ _ _ hgood hw1 hin1 ha
  have gab := writeBits_good _ _ _ _ _ ga hw2 (by rw [la]; exact hin2) hab
  refine ⟨gab, by rw [lab, la], ?_⟩
  rw [bitB_writeBits _ _ _ _ _ ga hw2 (by rw [la]; exact hin2) hab p,
    bitB_writeBits _ _ _ _ _ hgood hw1 hin1 ha p]

/-- C19. For every well-formed stream and any two in-range bit ranges of width
at least 1 that do not overlap, also when they share a byte,
`writeBits(v1, o1, w1)` followed by `writeBits(v2, o2, w2)` yields the same
stream as the two writes in the opposite order. -/
theorem writeBits_disjoint_commute (f : FStream) (v1 o1 w1 v2 o2 w2 : Nat)
    (hwf : WF f.bytes) (hw1 : 1 ≤ w1) (hw2 : 1 ≤ w2)
    (hin1 : o1 + w1 ≤ 8 * f.bytes.length) (hin2 : o2 + w2 ≤ 8 * f.bytes.length)
    (hdisj : o1 + w1 ≤ o2 ∨ o2 + w2 ≤ o1) :
    (writeBits f v1 o1 w1 >>= fun g => writeBits g v2 o2 w2)
      = (writeBits f v2 o2 w2 >>= fun g => writeBits g v1 o1 w1) := by
  obtain ⟨a, ha⟩ := writeBits_total f v1 o1 w1
  obtain ⟨ab, hab⟩ := writeBits_total a v2 o2 w2
  obtain ⟨b, hb⟩ := writeBits_total f v2 o2 w2
  obtain ⟨ba, hba⟩ := writeBits_total b v1 o1 w1
  have hl : writeBits f v1 o1 w1 >>= (fun g => writeBits g v2 o2 w2) = .ok ab := by
    rw [ha]; exact hab
  have hr : writeBits f v2 o2 w2 >>= (fun g => writeBits g v1 o1 w1) = .ok ba := by
    rw [hb]; exact hba
  rw [hl, hr]
  congr 1
  cases hf : f.failed with
  | true =>
    rw [writeBits_failed f _ _ _ hf] at ha hb
    injection ha with ha
    injection hb with hb
    subst ha
    subst hb
    rw [writeBits_failed f _ _ _ hf] at hab hba
    injection hab with hab
    injection hba with hba
    rw [← hab, ← hba]
  | false =>
    have wab : WF ab.bytes := writeBits_wf _ _ _ _ _ hab (writeBits_wf _ _ _ _ _ ha hwf)
    have wba : WF ba.bytes := writeBits_wf _ _ _ _ _ hba (writeBits_wf _ _ _ _ _ hb hwf)
    have key : ∀ p, bitB ab.bytes p = bitB ba.bytes p := by
      intro p
      rw [(bitB_two_writes f a ab v1 o1 w1 v2 o2 w2 hf (by omega) (by omega) hin1 hin2
            ha hab p).2.2,
        (bitB_two_writes f b ba v2 o2 w2 v1 o1 w1 hf (by omega) (by omega) hin2 hin1
            hb hba p).2.2]
      by_cases h2 : o2 ≤ p ∧ p < o2 + w2
      · have h1 : ¬ (o1 ≤ p ∧ p < o1 + w1) := by omega
        rw [if_pos h2, if_neg h1, if_pos h2]
      · rw [if_neg h2, if_neg h2]
    obtain ⟨gab, lab, _⟩ := bitB_two_writes f a ab v1 o1 w1 v2 o2 w2 hf (by omega) (by omega)
      hin1 hin2 ha hab 0
    obtain ⟨gba, lba, _⟩ := bitB_two_writes f b ba v2 o2 w2 v1 o1 w1 hf (by omega) (by omega)
      hin2 hin1 hb hba 0
    have hbytes : ab.bytes = ba.bytes :=
      bytes_eq_of_bits _ _ (by rw [lab, lba]) wab wba key
    cases ab
    cases ba
    simp_all

/-- C19 at a concrete input: the minutes field (bits 32..38) and the seconds
field (bits 39..45), which share byte 4. -/
theorem writeBits_disjoint_commute_witness :
    (writeBits (FStream.opened scenarioSource) 1 32 7 >>= fun g => writeBits g 30 39 7)
      = (writeBits (FStream.opened scenarioSource) 30 39 7 >>= fun g => writeBits g 1 32 7) :=
  writeBits_disjoint_commute (FStream.opened scenarioSource) 1 32 7 30 39 7
    (by decide) (by decide) (by decide) (by decide) (by decide) (by decide)

/-! ## C20: buffer indexing in `writeBits` -/

/-- C20. For every bit offset and every `bitCount ≥ 1`, with
`bitInByte = bitOffset mod 8`: every loop index `i < bitCount` gives
`bufByte < bytesNeeded` and `bufBit` in 0..7; `bytesNeeded` equals
`(bitOffset + bitCount - 1) / 8 - bitOffset / 8 + 1`; the first buffer byte
holds the bit of iteration 0 and the last one the bit of iteration
`bitCount - 1`; these are the indices the loop body of `writeBits` uses, so on
a buffer of `bytesNeeded` bytes every iteration stores its bit; and the window
of an in-range write has exactly `bytesNeeded` bytes. -/
theorem writeBits_buffer_indexing (bitOffset bitCount : Nat) (hcount : 1 ≤ bitCount) :
    (∀ i, i < bitCount →
      bufByte (bitOffset % 8) i < bytesNeeded bitOffset bitCount ∧
      bufBit (bitOffset % 8) i ≤ 7) ∧
    bytesNeeded bitOffset bitCount = (bitOffset + bitCount - 1) / 8 - bitOffset / 8 + 1 ∧
    bufByte (bitOffset % 8) 0 = 0 ∧
    bufByte (bitOffset % 8) (bitCount - 1) = bytesNeeded bitOffset bitCount - 1 ∧
    (∀ value buffer i, buffer.length = bytesNeeded bitOffset bitCount → i < bitCount →
      insertBit value bitCount (bitOffset % 8) buffer i
        = buffer.set (bufByte (bitOffset % 8) i)
            ((buffer.getD (bufByte (bitOffset % 8) i) 0
                &&& (0xFF ^^^ (1 <<< bufBit (bitOffset % 8) i)))
              ||| (((value >>> (bitCount - 1 - i)) &&& 1) <<< bufBit (bitOffset % 8) i)) ∧
      bitB (insertBit value bitCount (bitOffset % 8) buffer i) (bitOffset % 8 + i)
        = value.testBit (bitCount - 1 - i)) ∧
    (∀ bytes : List Nat, bitOffset + bitCount ≤ 8 * bytes.length →
      (window bytes bitOffset bitCount).length = bytesNeeded bitOffset bitCount) := by
  refine ⟨fun i hi => ?_, ?_, ?_, ?_, fun value buffer i hlen hi => ⟨rfl, ?_⟩,
    fun bytes hin => window_length bytes bitOffset bitCount hin⟩
  · unfold bufByte bufBit bytesNeeded
    omega
  · unfold bytesNeeded
    omega
  · unfold bufByte
    omega
  · unfold bufByte bytesNeeded
    omega
  · rw [bitB_insertBit _ _ _ _ _ _ (by rw [hlen]; unfold bytesNeeded; omega), if_pos rfl]

/-- C20 at a concrete input: the third write of `main`, bit 46 width 10, whose
buffer is the two bytes 5 and 6. -/
theorem writeBits_buffer_indexing_witness :
    (∀ i, i < 10 → bufByte (46 % 8) i < bytesNeeded 46 10 ∧ bufBit (46 % 8) i ≤ 7) ∧
    bytesNeeded 46 10 = (46 + 10 - 1) / 8 - 46 / 8 + 1 ∧
    bytesNeeded 46 10 = 2 ∧
    bufByte (46 % 8) 0 = 0 ∧
    bufByte (46 % 8) (10 - 1) = bytesNeeded 46 10 - 1 :=
  ⟨(writeBits_buffer_indexing 46 10 (by decide)).1,
   (writeBits_buffer_indexing 46 10 (by decide)).2.1,
   by decide,
   (writeBits_buffer_indexing 46 10 (by decide)).2.2.1,
   (writeBits_buffer_indexing 46 10 (by decide)).2.2.2.1⟩

end Rkg
